import Mathlib

/-!
Verification of the signature-driven EDF scanner/writer core
(`src/core/parser.py`, `src/core/writer.py`, `src/core/constants.py`,
`src/core/models.py`).

A buffer is a `List Nat` of byte values (each < 256 for well-formed
buffers).  32-bit floats are represented by their little-endian 32-bit
words (`Nat` < 2^32); `f32num` maps a word to its exact value as an
integer scaled by 2^149 for finite floats and to `none` for NaN and
the infinities, which decides every two-sided plausibility interval
the parser uses (NaN and the infinities all fail such intervals,
exactly as the Python comparisons do); `f32interp` gives the value as
an exact rational for the specification-level statements.  Keeping the
bit pattern rather than the value makes the byte-exact writer
round-trip provable without losing the sign of zero or denormal
payloads.
-/

namespace EDF

/-- Little-endian 32-bit word read: `b0 + 256*b1 + 65536*b2 + 16777216*b3`,
exactly the byte assembly performed by `struct.unpack_from` with a 4-byte
field. Out-of-range positions read as 0 (the parser always bounds-checks
before reading). -/
def readWord32 (data : List Nat) (pos : Nat) : Nat :=
  data.getD pos 0 + 256 * data.getD (pos+1) 0 + 65536 * data.getD (pos+2) 0
    + 16777216 * data.getD (pos+3) 0

/-- Two's-complement interpretation of a 32-bit word, as done by `'<i'`. -/
def i32ofWord (w : Nat) : Int :=
  if w < 2147483648 then (w : Int) else (w : Int) - 4294967296

/-- Little-endian encoding of a 32-bit word into 4 bytes, as done by
`struct.pack_into` with a 4-byte field. -/
def encWord32 (w : Nat) : List Nat :=
  [w % 256, w / 256 % 256, w / 65536 % 256, w / 16777216 % 256]

/-- Encoding of a signed 32-bit value (`'<i'`): two's complement bytes. -/
def encI32 (z : Int) : List Nat :=
  encWord32 ((z % 4294967296).toNat)

/-- Scaled-integer value of an IEEE-754 binary32 bit pattern: `some n`
where the float's exact value is `n / 2^149`, for finite floats
(including signed zeros and denormals); `none` for NaN and the two
infinities.  2^149 is the common denominator of all finite binary32
values, so this is exact and, being free of rational normalisation,
kernel-computable. -/
def f32num (w : Nat) : Option Int :=
  let s : Nat := w / 2147483648 % 2
  let e : Nat := w / 8388608 % 256
  let m : Nat := w % 8388608
  if e = 255 then none
  else if e = 0 then
    some ((if s = 1 then (-1 : Int) else 1) * (m : Int))
  else
    some ((if s = 1 then (-1 : Int) else 1) * ((8388608 + m : Nat) : Int) * (2 : Int) ^ (e - 1))

/-- Exact value of an IEEE-754 binary32 bit pattern as a rational:
`some q` for finite floats, `none` for NaN and the two infinities. -/
def f32interp (w : Nat) : Option ℚ :=
  (f32num w).map fun n => (n : ℚ) / (2 : ℚ) ^ (149 : Nat)

/-- A two-sided plausibility interval on a float bit pattern, with both
bounds given scaled by 2^149.  Mirrors a Python chained comparison
`lo <= x <= hi` on the unpacked float: finite values are compared
exactly, while NaN and the infinities fail both sides. -/
def fInRangeScaled (lo hi : Int) (w : Nat) : Bool :=
  match f32num w with
  | some n => decide (lo ≤ n) && decide (n ≤ hi)
  | none => false

/-- `plausible_comp` from `parser.py`: `-300 <= x <= 300`. -/
def plausible_comp (w : Nat) : Bool :=
  fInRangeScaled (-300 * 2 ^ 149) (300 * 2 ^ 149) w

/-- `plausible_torque` from `parser.py`: `-4000 <= x <= 10000`. -/
def plausible_torque (w : Nat) : Bool :=
  fInRangeScaled (-4000 * 2 ^ 149) (10000 * 2 ^ 149) w

/-- `plausible_rpm` from `parser.py` applied to a float bit pattern:
`0 <= x <= 25000`. -/
def plausible_rpm_f (w : Nat) : Bool :=
  fInRangeScaled 0 (25000 * 2 ^ 149) w

/-- `plausible_rpm` applied to `float(rpm_i)` for a decoded int32: the
conversion to double is exact, so this is an integer comparison. -/
def plausible_rpm_int (z : Int) : Bool := decide (0 ≤ z) && decide (z ≤ 25000)

/-- Boost throttle plausibility `0.5 <= v <= 3.0` (0.5 scaled by 2^149
is 2^148). -/
def plausible_throttle (w : Nat) : Bool :=
  fInRangeScaled (2 ^ 148) (3 * 2 ^ 149) w

/-- Does `sub` occur in `data` starting at position `i`?  Mirrors the
Python slice comparison `data[i:i+len(sub)] == sub` (a slice that runs
past the end is shorter than `sub` and compares unequal). -/
def matchAt (data sub : List Nat) (i : Nat) : Bool :=
  decide (i + sub.length ≤ data.length) && decide ((data.drop i).take sub.length = sub)

/-- `bytes.find(sub, start)`: the smallest `i ≥ start` at which `sub`
occurs, `none` when there is none (Python returns -1). -/
def bfind (data sub : List Nat) (start : Nat) : Option Nat :=
  (List.range (data.length + 1)).find? (fun i => decide (start ≤ i) && matchAt data sub i)

/-- The fuelled loop of `find_all`: yield a match, then restart the
search at `i + len(sub)` (the deliberate non-overlap policy). -/
def find_all_fuel (data sub : List Nat) : Nat → Nat → List Nat
  | 0, _ => []
  | fuel+1, start =>
    match bfind data sub start with
    | none => []
    | some i => i :: find_all_fuel data sub fuel (i + sub.length)

/-- `find_all` from `parser.py`.  For a non-empty needle the start
position strictly increases at every step and never exceeds the buffer
length while a match is possible, so `data.length + 1` steps of fuel are
always enough (proved as `find_all_fuel_stable`). -/
def find_all (data sub : List Nat) : List Nat :=
  find_all_fuel data sub (data.length + 1) 0

/-- `bytes.rfind(sub)`: the largest position at which `sub` occurs. -/
def brfind (data sub : List Nat) : Option Nat :=
  ((List.range (data.length + 1)).filter (fun i => matchAt data sub i)).getLast?

-- -------- Signatures (from constants.py) --------

def SIG_0RPM : List Nat := [0x24, 0x8B, 0x0A, 0xB7, 0x71, 0x83, 0x02]
def SIG_ROW_I : List Nat := [0x24, 0x8B, 0x0A, 0xB7, 0x71, 0x93, 0x02]
def SIG_ROW_F : List Nat := [0x24, 0x8B, 0x0A, 0xB7, 0x71, 0xA3, 0x02]
def SIG_ENDVAR : List Nat := [0x24, 0x8B, 0x0A, 0xB7, 0x71, 0x93, 0x00]
def SIG_BOOST_0RPM : List Nat := [0x24, 0x51, 0x5F, 0x5E, 0x83, 0x86, 0xAA]
def SIG_BOOST_ROW : List Nat := [0x24, 0x51, 0x5F, 0x5E, 0x83, 0x96, 0xAA]

-- -------- Field formats and decoded values --------

/-- A primitive field type tag: `'f'` (Float32), `'i'` (Int32), `'b'`
(unsigned byte), as used in the `PARAMS` format tuples. -/
inductive Fc where
  | f
  | i
  | b
deriving DecidableEq, Repr

/-- Byte width of a field: 4 for Float32/Int32, 1 for Byte. -/
def fcSize : Fc → Nat
  | .f => 4
  | .i => 4
  | .b => 1

/-- Total byte width of a field-format sequence. -/
def sizeFmt (fmt : List Fc) : Nat := (fmt.map fcSize).sum

/-- A decoded primitive value: a float (kept as its 32-bit pattern), a
signed 32-bit integer, or a byte. -/
inductive PVal where
  | f (w : Nat)
  | i (z : Int)
  | b (v : Nat)
deriving DecidableEq, Repr

/-- The inner loop of `read_by_fmt`: decode fields left to right,
failing as soon as the next field does not fit in the buffer. -/
def readLoop (data : List Nat) : List Fc → Nat → Option (List PVal × Nat)
  | [], cur => some ([], cur)
  | fc :: rest, cur =>
    match fc with
    | .f =>
      if cur + 4 ≤ data.length then
        match readLoop data rest (cur + 4) with
        | some (vs, e) => some (.f (readWord32 data cur) :: vs, e)
        | none => none
      else none
    | .i =>
      if cur + 4 ≤ data.length then
        match readLoop data rest (cur + 4) with
        | some (vs, e) => some (.i (i32ofWord (readWord32 data cur)) :: vs, e)
        | none => none
      else none
    | .b =>
      if cur + 1 ≤ data.length then
        match readLoop data rest (cur + 1) with
        | some (vs, e) => some (.b (data.getD cur 0) :: vs, e)
        | none => none
      else none

/-- `read_by_fmt` from `parser.py`: on success returns the decoded
values and the advanced cursor; on a bounds failure returns `none`
together with the ORIGINAL position (no bytes consumed from the
caller's perspective). -/
def read_by_fmt (data : List Nat) (pos : Nat) (fmtseq : List Fc) :
    Option (List PVal) × Nat :=
  match readLoop data fmtseq pos with
  | some (vs, e) => (some vs, e)
  | none => (none, pos)

-- -------- Entity models (models.py) --------

/-- Torque row kind: `'0rpm'`, `'row_i'`, `'row_f'`, `'endvar'`. -/
inductive TKind where
  | zrpm
  | row_i
  | row_f
  | endvar
deriving DecidableEq, Repr

/-- `rpm` as stored in a row: Python keeps a double, which is either an
exactly-converted int32 (`.inl`, covering `float(rpm_i)` and the
literal `0.0`) or the exact value of an unpacked float32 (`.inr`, kept
as its bit pattern). -/
abbrev RpmRep := Int ⊕ Nat

/-- Sort key of a stored rpm, scaled by 2^149 (float32 patterns that
are NaN or infinite — never produced by the scanner — default to 0).
Scaling preserves the order Python's float sort key induces on the
finite values the scanners store. -/
def rpmScaled : RpmRep → Int
  | .inl z => z * 2 ^ 149
  | .inr w => (f32num w).getD 0

/-- Rational value of a stored rpm, `none` for NaN/infinite patterns. -/
def rpmVal : RpmRep → Option ℚ
  | .inl z => some (z : ℚ)
  | .inr w => f32interp w

/-- `TorqueRow` from `models.py`; float fields are kept as bit words. -/
structure TorqueRow where
  rpm : RpmRep
  compression : Nat
  torque : Option Nat
  offset : Nat
  kind : TKind
deriving DecidableEq, Repr

/-- `TorqueTable` from `models.py`. -/
structure TorqueTable where
  offset : Nat
  rows : List TorqueRow
deriving DecidableEq, Repr

/-- Boost row kind: `'boost_0rpm'` or `'boost_row'`. -/
inductive BKind where
  | b0rpm
  | brow
deriving DecidableEq, Repr

/-- `BoostRow` from `models.py`; rpm is an exact integer (0 for the
zero-rpm row, a decoded int32 otherwise), throttle values are float
bit words. -/
structure BoostRow where
  rpm : Int
  t0 : Nat
  t25 : Nat
  t50 : Nat
  t75 : Nat
  t100 : Nat
  offset : Nat
  kind : BKind
deriving DecidableEq, Repr

/-- `BoostTable` from `models.py`. -/
structure BoostTable where
  offset : Nat
  rows : List BoostRow
deriving DecidableEq, Repr

/-- `Parameter` from `models.py`. -/
structure Parameter where
  name : String
  offset : Nat
  values : List PVal
  fmt : List Fc
deriving DecidableEq, Repr

-- -------- The parameter catalog (constants.py, insertion order) --------

/-- `PARAMS` from `constants.py`: signature, logical name, field format,
in dictionary insertion order. -/
def PARAMS : List (List Nat × String × List Fc) := [
  ([0x22, 0x4A, 0xE2, 0xDD, 0x6C], "FuelConsumption", [.f]),
  ([0x22, 0xD2, 0xA2, 0x92, 0x32], "FuelEstimate", [.f]),
  ([0x22, 0x46, 0x65, 0xAE, 0x87], "EngineInertia", [.f]),
  ([0x22, 0x40, 0xF1, 0xD2, 0xB9], "Unknown_EngineFreeRevs", [.f]),
  ([0x24, 0x4D, 0x23, 0x97, 0x54, 0xA2], "IdleRPMLogic", [.f, .f]),
  ([0x24, 0x4D, 0x23, 0x97, 0x54, 0x52], "IdleRPMLogic", [.i, .i]),
  ([0x22, 0x21, 0x98, 0x99, 0xAE], "LaunchEfficiency", [.f]),
  ([0x24, 0x79, 0x02, 0xB6, 0xBD, 0xA2], "LaunchRPMLogic", [.f, .f]),
  ([0x24, 0xDE, 0xA7, 0x2E, 0xB7, 0x23, 0x00], "RevLimitRange", [.f, .f, .b]),
  ([0x24, 0xDE, 0xA7, 0x2E, 0xB7, 0x13, 0x00], "RevLimitRange", [.i, .b, .b]),
  ([0x20, 0xA5, 0x5C, 0xC1, 0xC4], "RevLimitSetting", [.b]),
  ([0x28, 0xA5, 0x5C, 0xC1, 0xC4], "RevLimitSetting_NoValue", []),
  ([0x22, 0x19, 0x66, 0x8A, 0xF9], "RevLimitLogic", [.f]),
  ([0x24, 0x83, 0x15, 0x2F, 0x20, 0x03, 0x00], "EngineFuelMapRange", [.b, .b, .b]),
  ([0x20, 0xC4, 0x44, 0x73, 0xF5], "EngineFuelMapSetting", [.b]),
  ([0x24, 0xBF, 0x84, 0x7C, 0xF1, 0xA3, 0x00], "EngineBrakingMapRange", [.f, .f, .b]),
  ([0x20, 0xBE, 0x71, 0xED, 0x67], "EngineBrakingMapSetting", [.b]),
  ([0x22, 0xAF, 0xD7, 0x8A, 0xDD], "OptimumOilTemp", [.f]),
  ([0x22, 0x54, 0x10, 0x6D, 0xB1], "CombustionHeat", [.f]),
  ([0x22, 0xF6, 0xE3, 0x9F, 0xD9], "EngineSpeedHeat", [.f]),
  ([0x22, 0xB3, 0x0F, 0x25, 0xFC], "OilMinimumCooling", [.f]),
  ([0x24, 0xA7, 0x00, 0xD2, 0x3A, 0xA2], "OilWaterHeatTransfer", [.f, .f]),
  ([0x22, 0x67, 0x17, 0x15, 0x86], "WaterMinimumCooling", [.f]),
  ([0x24, 0x6A, 0xDA, 0x2B, 0x3A, 0xA2], "RadiatorCooling", [.f, .f]),
  ([0x21, 0x3F, 0x6B, 0x7B, 0xE7, 0x82, 0x00], "Unknown_Chunk_213F6B", [.b, .b]),
  ([0x20, 0x6D, 0x47, 0xC1, 0xB2], "Unknown_Chunk_206D47", [.b]),
  ([0x24, 0xD3, 0x94, 0x64, 0xAF, 0xA2], "LifetimeEngineRPM", [.f, .f]),
  ([0x24, 0xD3, 0x94, 0x64, 0xAF, 0x52], "LifetimeEngineRPM", [.i, .i]),
  ([0x24, 0x0A, 0xCE, 0xA8, 0x58, 0xA2], "LifetimeOilTemp", [.f, .f]),
  ([0x24, 0x05, 0x71, 0xC7, 0x19, 0xA2], "Unknown_LMP_RWD_P30_A", [.f, .f]),
  ([0x22, 0xF7, 0x5F, 0x82, 0x2B], "LifetimeAvg", [.f]),
  ([0x22, 0x52, 0x7B, 0x76, 0xCD], "LifetimeVar", [.f]),
  ([0x24, 0xC1, 0xF4, 0x54, 0x3C, 0x83, 0x02], "Unknown_LMP_RWD_P30_B", [.b, .f, .f]),
  ([0x24, 0xCE, 0xB1, 0x75, 0x25, 0xA3, 0x02], "EngineEmission", [.f, .f, .f]),
  ([0x20, 0x11, 0x8B, 0xA3, 0x81], "OnboardStarter?", [.b]),
  ([0x26, 0xAF, 0x00, 0xB3, 0xBA], "EDF_UNKN_005", [.b]),
  ([0x24, 0x52, 0x17, 0xFB, 0x41, 0xA3, 0x02], "StarterTiming", [.f, .f, .f]),
  ([0x22, 0x92, 0xC7, 0xCD, 0x7C], "Unknown_Float_3", [.f]),
  ([0x24, 0xFC, 0x89, 0xE8, 0x9C, 0xA3, 0x00], "AirRestrictorRange", [.f, .f, .b]),
  ([0x20, 0xC5, 0xB4, 0x08, 0xFE], "AirRestrictorSetting", [.b]),
  ([0x28, 0xC5, 0xB4, 0x08, 0xFE], "AirRestrictorSetting_NoValue", []),
  ([0x20, 0x2B, 0x3E, 0xD3, 0x40], "Unknown_Byte_2B3ED340", [.b]),
  ([0x22, 0xBA, 0x65, 0xDD, 0x60], "Unknown_Float_6e-06", [.f]),
  ([0x22, 0x81, 0x92, 0x17, 0xE0], "Unknown_Float_295", [.f]),
  ([0x24, 0x63, 0x23, 0x3A, 0x14, 0xA3, 0x00], "WasteGateRange_OLD", [.f, .f, .b]),
  ([0x20, 0xDF, 0x86, 0x64, 0xFC], "WasteGateSetting_OLD", [.b]),
  ([0x28, 0xDF, 0x86, 0x64, 0xFC], "WasteGateSetting_OLD_NoValue", []),
  ([0x23, 0x00, 0x00, 0x50, 0xC3], "Unknown_2300005", [.b, .b]),
  ([0x24, 0xD7, 0x74, 0x45, 0x1A, 0x83, 0x00], "BoostRange", [.b, .f, .b]),
  ([0x20, 0xCA, 0x2F, 0xD1, 0x34], "BoostSetting", [.b]),
  ([0x28, 0xCA, 0x2F, 0xD1, 0x34], "BoostSetting_NoValue", [])
]

/-- `ENGINE_LAYOUT_CODES` from `constants.py`, in insertion order. -/
def ENGINE_LAYOUT_CODES : List (List Nat × String) := [
  ([0xD7, 0x50, 0x75, 0x68, 0xA3, 0x0A, 0x62], "Single Cylinder (8B sequence)"),
  ([0xC2, 0x2D, 0x3B], "Flat 4 / 3 Rotor (per SMS)"),
  ([0xD7, 0x2D, 0x3B], "Straight 4"),
  ([0xD7, 0x2C, 0x3B], "Straight 5"),
  ([0xD7, 0x2F, 0x3B], "Straight 6"),
  ([0xC2, 0x2F, 0x3B], "Flat 6"),
  ([0xD2, 0x21, 0x3B], "V8 / Flat 8"),
  ([0xD2, 0x28, 0x09, 0x2F], "V12"),
  ([0xD2, 0x28, 0x0B, 0x2F], "V10")
]

-- -------- Sorting (rows.sort(key=lambda r: r.rpm), stable) --------

/-- Stable insertion of `x` after all elements whose key is `≤ key x`. -/
def insertSorted (key : α → Int) (x : α) : List α → List α
  | [] => [x]
  | y :: rest => if key y ≤ key x then y :: insertSorted key x rest else x :: y :: rest

/-- Stable sort by an integer key (models Python's stable `list.sort`;
every rpm key produced by the scanners is a finite value, and the
2^149-scaled integer keys order exactly as the Python float keys). -/
def sortByKey (key : α → Int) (l : List α) : List α :=
  l.foldl (fun acc x => insertSorted key x acc) []

-- -------- Torque table scanner (parse_torque_tables) --------

/-- The row-cursor loop of `parse_torque_tables`: starting at `q`, keep
consuming RowInt / RowFloat rows until another table begins, an EndVar
row terminates the table, a plausibility gate fails, bytes run out, or
no known signature matches.  `fuel` only bounds the recursion; each
step advances the cursor by 19 bytes, so `data.length + 1` fuel is
never exhausted before the loop exits on its own. -/
def torqueRowsLoop (data : List Nat) : Nat → Nat → List TorqueRow
  | 0, _ => []
  | fuel+1, q =>
    if q < data.length then
      if matchAt data SIG_0RPM q then []
      else if matchAt data SIG_ROW_I q then
        if q + 19 ≤ data.length then
          let rpm := i32ofWord (readWord32 data (q + 7))
          let comp := readWord32 data (q + 11)
          let tq := readWord32 data (q + 15)
          if plausible_rpm_int rpm && plausible_comp comp && plausible_torque tq then
            ⟨.inl rpm, comp, some tq, q, .row_i⟩ :: torqueRowsLoop data fuel (q + 19)
          else []
        else []
      else if matchAt data SIG_ROW_F q then
        if q + 19 ≤ data.length then
          let rpm := readWord32 data (q + 7)
          let comp := readWord32 data (q + 11)
          let tq := readWord32 data (q + 15)
          if plausible_rpm_f rpm && plausible_comp comp && plausible_torque tq then
            ⟨.inr rpm, comp, some tq, q, .row_f⟩ :: torqueRowsLoop data fuel (q + 19)
          else []
        else []
      else if matchAt data SIG_ENDVAR q then
        if q + 16 ≤ data.length then
          [⟨.inl (i32ofWord (readWord32 data (q + 7))), readWord32 data (q + 11),
            none, q, .endvar⟩]
        else []
      else []
    else []

/-- `parse_torque_tables` from `parser.py`.  For each ZeroRpm signature
match: read the (Byte, Float32, Float32) payload (the leading byte is
tolerated un-checked and not stored), gate compression and torque, run
the row loop, keep the table only when it has at least two rows, and
sort the rows by rpm. -/
def parse_torque_tables (data : List Nat) : List TorqueTable :=
  (find_all data SIG_0RPM).filterMap fun off0 =>
    if off0 + 16 ≤ data.length then
      let comp0 := readWord32 data (off0 + 8)
      let tq0 := readWord32 data (off0 + 12)
      if plausible_comp comp0 && plausible_torque tq0 then
        let rows : List TorqueRow :=
          ⟨.inl 0, comp0, some tq0, off0, .zrpm⟩ ::
            torqueRowsLoop data (data.length + 1) (off0 + 16)
        if 2 ≤ rows.length then
          some ⟨off0, sortByKey (fun r => rpmScaled r.rpm) rows⟩
        else none
      else none
    else none

-- -------- Boost table scanner (parse_boost_tables) --------

/-- The row-cursor loop of `parse_boost_tables` (each accepted row
advances the cursor by 31 bytes). -/
def boostRowsLoop (data : List Nat) : Nat → Nat → List BoostRow
  | 0, _ => []
  | fuel+1, q =>
    if q < data.length then
      if matchAt data SIG_BOOST_0RPM q then []
      else if matchAt data SIG_BOOST_ROW q then
        if q + 31 ≤ data.length then
          let rpm := i32ofWord (readWord32 data (q + 7))
          let t0 := readWord32 data (q + 11)
          let t25 := readWord32 data (q + 15)
          let t50 := readWord32 data (q + 19)
          let t75 := readWord32 data (q + 23)
          let t100 := readWord32 data (q + 27)
          if plausible_rpm_int rpm &&
              (plausible_throttle t0 && plausible_throttle t25 && plausible_throttle t50 &&
                plausible_throttle t75 && plausible_throttle t100) then
            ⟨rpm, t0, t25, t50, t75, t100, q, .brow⟩ :: boostRowsLoop data fuel (q + 31)
          else []
        else []
      else []
    else []

/-- `parse_boost_tables` from `parser.py`.  Same control structure as
the torque scanner; the zero-rpm payload is (Byte, 5 × Float32) with
every throttle value gated to [0.5, 3.0] and the leading byte
un-checked. -/
def parse_boost_tables (data : List Nat) : List BoostTable :=
  (find_all data SIG_BOOST_0RPM).filterMap fun off0 =>
    if off0 + 28 ≤ data.length then
      let t0 := readWord32 data (off0 + 8)
      let t25 := readWord32 data (off0 + 12)
      let t50 := readWord32 data (off0 + 16)
      let t75 := readWord32 data (off0 + 20)
      let t100 := readWord32 data (off0 + 24)
      if plausible_throttle t0 && plausible_throttle t25 && plausible_throttle t50 &&
          plausible_throttle t75 && plausible_throttle t100 then
        let rows : List BoostRow :=
          ⟨0, t0, t25, t50, t75, t100, off0, .b0rpm⟩ ::
            boostRowsLoop data (data.length + 1) (off0 + 28)
        if 2 ≤ rows.length then
          some ⟨off0, sortByKey (fun r => r.rpm) rows⟩
        else none
      else none
    else none

-- -------- Parameter scanner (parse_params) --------

/-- `parse_params` from `parser.py`: for every catalog entry, for every
non-overlapping signature match, decode the payload; an empty format
records a presence-only parameter, a failed read silently drops the
match. -/
def parse_params (data : List Nat) : List Parameter :=
  PARAMS.flatMap fun entry =>
    (find_all data entry.1).filterMap fun pos =>
      if entry.2.2 = [] then
        some ⟨entry.2.1, pos, [], entry.2.2⟩
      else
        match read_by_fmt data (pos + entry.1.length) entry.2.2 with
        | (some vals, _) => some ⟨entry.2.1, pos, vals, entry.2.2⟩
        | (none, _) => none

-- -------- Engine layout detector (detect_engine_layout) --------

/-- The tail inspected by `detect_engine_layout`: the last 64 bytes, or
the whole buffer when it has at most 64 bytes. -/
def layoutTail (data : List Nat) : List Nat :=
  if 64 < data.length then data.drop (data.length - 64) else data

/-- The code-table loop of `detect_engine_layout`: try codes in table
order, return the first whose last occurrence in the tail exists,
with the absolute offset of that occurrence. -/
def detectLoop (dataLen tailLen : Nat) (tail : List Nat) :
    List (List Nat × String) → String × Option Nat
  | [] => ("Unknown/Not found", none)
  | (k, label) :: rest =>
    match brfind tail k with
    | some i => (label, some (dataLen - tailLen + i))
    | none => detectLoop dataLen tailLen tail rest

/-- `detect_engine_layout` from `parser.py`. -/
def detect_engine_layout (data : List Nat) : String × Option Nat :=
  detectLoop data.length (layoutTail data).length (layoutTail data) ENGINE_LAYOUT_CODES

-- -------- Byte-exact writer (writer.py) --------

/-- `struct.pack_into`: overwrite `bs.length` bytes of `data` starting
at `off` (the callers only ever write ranges validated by a prior
successful read, so the in-bounds case is the one that matters). -/
def writeBytes : List Nat → Nat → List Nat → List Nat
  | data, _, [] => data
  | data, off, b :: bs => writeBytes (data.set off b) (off + 1) bs

/-- `int(row.rpm)` truncation toward zero, for an rpm stored as a
double.  The `.inr` branch (a float32-typed rpm reaching an
integer-packing write) never occurs for scanner-produced rows. -/
def rpmToInt : RpmRep → Int
  | .inl z => z
  | .inr w =>
    let q := (f32interp w).getD 0
    if 0 ≤ q then (q.floor : Int) else -((-q).floor)

/-- What a stored float's bit pattern becomes when the writer re-packs
it.  CPython stores the UNPACKED double and `struct.pack('<f', …)`
converts it back, so the float32 value travels float32 → double →
float32.  That round-trip is bit-exact for finite values, signed
zeros, infinities and quiet NaNs, but it QUIETS a signaling NaN: the
conversions set mantissa bit 22 and preserve sign and payload
(e.g. bytes `01 00 80 7F`, word `0x7F800001`, come back as
`01 00 C0 7F`, word `0x7FC00001`).  The writers below apply this to
every float field they emit. -/
def f32repack (w : Nat) : Nat :=
  if w / 8388608 % 256 = 255 ∧ w % 8388608 ≠ 0 ∧ w % 8388608 < 4194304 then
    w + 4194304
  else w

/-- A float bit pattern the writer's re-packing leaves unchanged
(everything except signaling NaNs). -/
def quietF32 (w : Nat) : Bool := decide (f32repack w = w)

/-- Quietness of one decoded value (only float fields can be NaN). -/
def PValQuiet : PVal → Bool
  | .f w => quietF32 w
  | .i _ => true
  | .b _ => true

/-- `write_torque_row` from `writer.py`.  ZeroRpm re-reads the current
leading byte immediately before writing; EndVar re-reads the current
trailing byte; RowInt/RowFloat rewrite their full 12-byte payload.
Every float field is emitted through `f32repack`, because Python packs
the unpacked double.  A RowFloat row repacks the rpm from its stored
float32 bit pattern; the `.inl` combination (an integer-represented
rpm on a RowFloat row, where Python would round-convert the double to
float32) cannot arise from the scanner and is modelled as a no-op. -/
def write_torque_row (data : List Nat) (row : TorqueRow) : List Nat :=
  match row.kind with
  | .zrpm =>
    match row.torque with
    | none => data
    | some tq =>
      let off := row.offset + 7
      let b0 := data.getD off 0
      writeBytes data off
        ([b0] ++ encWord32 (f32repack row.compression) ++ encWord32 (f32repack tq))
  | .row_i =>
    match row.torque with
    | none => data
    | some tq =>
      let off := row.offset + 7
      writeBytes data off
        (encI32 (rpmToInt row.rpm) ++ encWord32 (f32repack row.compression) ++
          encWord32 (f32repack tq))
  | .row_f =>
    match row.torque with
    | none => data
    | some tq =>
      let off := row.offset + 7
      match row.rpm with
      | .inr w =>
        writeBytes data off
          (encWord32 (f32repack w) ++ encWord32 (f32repack row.compression) ++
            encWord32 (f32repack tq))
      | .inl _ => data
  | .endvar =>
    let off := row.offset + 7
    let trailing := data.getD (off + 8) 0
    writeBytes data off
      (encI32 (rpmToInt row.rpm) ++ encWord32 (f32repack row.compression) ++ [trailing])

/-- `write_boost_row` from `writer.py`.  The zero-rpm row preserves the
current leading byte; plain rows rewrite (int32 rpm, 5 × Float32); all
throttle floats are emitted through `f32repack`. -/
def write_boost_row (data : List Nat) (row : BoostRow) : List Nat :=
  match row.kind with
  | .b0rpm =>
    let off := row.offset + 7
    let b0 := data.getD off 0
    writeBytes data off
      ([b0] ++ encWord32 (f32repack row.t0) ++ encWord32 (f32repack row.t25) ++
        encWord32 (f32repack row.t50) ++ encWord32 (f32repack row.t75) ++
        encWord32 (f32repack row.t100))
  | .brow =>
    let off := row.offset + 7
    writeBytes data off
      (encI32 row.rpm ++ encWord32 (f32repack row.t0) ++ encWord32 (f32repack row.t25) ++
        encWord32 (f32repack row.t50) ++ encWord32 (f32repack row.t75) ++
        encWord32 (f32repack row.t100))

/-- Signature length recovered by name from the catalog (first match in
insertion order; 0 when the name is absent), as `write_param` does. -/
def sigLenByName (n : String) : Nat :=
  match PARAMS.find? (fun entry => entry.2.1 = n) with
  | some entry => entry.1.length
  | none => 0

/-- Field format recovered by name from the catalog (first match in
insertion order; empty when the name is absent). -/
def lookupFmtByName (n : String) : List Fc :=
  match PARAMS.find? (fun entry => entry.2.1 = n) with
  | some entry => entry.2.2
  | none => []

/-- The format `write_param` actually uses: the parameter's own format
when non-empty, otherwise the catalog entry for its name. -/
def fmtUsed (p : Parameter) : List Fc :=
  if p.fmt = [] then lookupFmtByName p.name else p.fmt

/-- Encoding of one field value (`struct.pack_into` with a single
field).  A float value goes through `f32repack`, because Python packs
the unpacked double (quieting a signaling NaN).  The shape of a
scanner-produced value always matches its format tag; a mismatched
pair (where Python would coerce or fault) writes nothing. -/
def packVal : Fc → PVal → List Nat
  | .f, .f w => encWord32 (f32repack w)
  | .i, .i z => encI32 z
  | .b, .b v => [v % 256]
  | _, _ => []

/-- The field-writing loop of `write_param`: write each value and
advance the cursor by the field's width. -/
def writeValsLoop : List Fc → List PVal → List Nat → Nat → List Nat
  | [], _, data, _ => data
  | _ :: _, [], data, _ => data
  | fc :: fr, v :: vr, data, cur =>
    writeValsLoop fr vr (writeBytes data cur (packVal fc v)) (cur + fcSize fc)

/-- `write_param` from `writer.py`: recover the signature length (and,
for presence-only parameters, the format) from the catalog by name;
an empty format is a no-op. -/
def write_param (data : List Nat) (p : Parameter) : List Nat :=
  let fmt := fmtUsed p
  if fmt = [] then data
  else writeValsLoop fmt p.values data (p.offset + sigLenByName p.name)

-- -------- Entities (scanner output consumed by the writer) --------

/-- One scanner-produced, writer-consumable entity. -/
inductive Entity where
  | torque (r : TorqueRow)
  | boost (r : BoostRow)
  | param (p : Parameter)
deriving DecidableEq, Repr

/-- Dispatch an entity to its writer. -/
def writeEntity (data : List Nat) : Entity → List Nat
  | .torque r => write_torque_row data r
  | .boost r => write_boost_row data r
  | .param p => write_param data p

/-- No UN-GATED float field of the entity holds a signaling-NaN bit
pattern.  An EndVar row's compression and a parameter's float values
are the only float fields the scanner stores without a plausibility
check; every gated field passed a two-sided interval and is therefore
finite, never NaN.  A signaling NaN in an un-gated field is quieted by
the writer's re-pack (`f32repack`), so its bytes cannot round-trip. -/
def EntityQuiet : Entity → Bool
  | .torque r =>
    match r.kind with
    | .endvar => quietF32 r.compression
    | _ => true
  | .boost _ => true
  | .param p => p.values.all PValQuiet

/-- All entities produced by scanning a buffer: torque rows, boost
rows, parameters (each holding offsets into the same buffer). -/
def scanEntities (data : List Nat) : List Entity :=
  ((parse_torque_tables data).flatMap TorqueTable.rows).map .torque ++
    ((parse_boost_tables data).flatMap BoostTable.rows).map .boost ++
    (parse_params data).map .param

/-- Apply a list of entity writes left to right. -/
def applyWrites (data : List Nat) (es : List Entity) : List Nat :=
  es.foldl writeEntity data

-- -------- Characterisation of scanner output --------

/-- What a scanner-produced torque row looks like: its fields are
decodes of the owning buffer at positions fixed by its kind and offset,
it lies within bounds, and the gated fields passed their plausibility
checks (EndVar rows carry no gates in the source). -/
def TRowOk (data : List Nat) (r : TorqueRow) : Prop :=
  match r.kind with
  | .zrpm =>
      r.offset + 16 ≤ data.length ∧ r.rpm = .inl 0 ∧
      r.compression = readWord32 data (r.offset + 8) ∧
      r.torque = some (readWord32 data (r.offset + 12)) ∧
      plausible_comp r.compression = true ∧
      plausible_torque (readWord32 data (r.offset + 12)) = true
  | .row_i =>
      r.offset + 19 ≤ data.length ∧
      r.rpm = .inl (i32ofWord (readWord32 data (r.offset + 7))) ∧
      r.compression = readWord32 data (r.offset + 11) ∧
      r.torque = some (readWord32 data (r.offset + 15)) ∧
      plausible_rpm_int (i32ofWord (readWord32 data (r.offset + 7))) = true ∧
      plausible_comp r.compression = true ∧
      plausible_torque (readWord32 data (r.offset + 15)) = true
  | .row_f =>
      r.offset + 19 ≤ data.length ∧
      r.rpm = .inr (readWord32 data (r.offset + 7)) ∧
      r.compression = readWord32 data (r.offset + 11) ∧
      r.torque = some (readWord32 data (r.offset + 15)) ∧
      plausible_rpm_f (readWord32 data (r.offset + 7)) = true ∧
      plausible_comp r.compression = true ∧
      plausible_torque (readWord32 data (r.offset + 15)) = true
  | .endvar =>
      r.offset + 16 ≤ data.length ∧
      r.rpm = .inl (i32ofWord (readWord32 data (r.offset + 7))) ∧
      r.compression = readWord32 data (r.offset + 11) ∧
      r.torque = none

/-- What a scanner-produced boost row looks like. -/
def BRowOk (data : List Nat) (r : BoostRow) : Prop :=
  match r.kind with
  | .b0rpm =>
      r.offset + 28 ≤ data.length ∧ r.rpm = 0 ∧
      r.t0 = readWord32 data (r.offset + 8) ∧ r.t25 = readWord32 data (r.offset + 12) ∧
      r.t50 = readWord32 data (r.offset + 16) ∧ r.t75 = readWord32 data (r.offset + 20) ∧
      r.t100 = readWord32 data (r.offset + 24) ∧
      plausible_throttle r.t0 = true ∧ plausible_throttle r.t25 = true ∧
      plausible_throttle r.t50 = true ∧ plausible_throttle r.t75 = true ∧
      plausible_throttle r.t100 = true
  | .brow =>
      r.offset + 31 ≤ data.length ∧
      r.rpm = i32ofWord (readWord32 data (r.offset + 7)) ∧
      r.t0 = readWord32 data (r.offset + 11) ∧ r.t25 = readWord32 data (r.offset + 15) ∧
      r.t50 = readWord32 data (r.offset + 19) ∧ r.t75 = readWord32 data (r.offset + 23) ∧
      r.t100 = readWord32 data (r.offset + 27) ∧
      plausible_rpm_int r.rpm = true ∧
      plausible_throttle r.t0 = true ∧ plausible_throttle r.t25 = true ∧
      plausible_throttle r.t50 = true ∧ plausible_throttle r.t75 = true ∧
      plausible_throttle r.t100 = true

/-- What a scanner-produced parameter looks like: it stems from a
catalog entry, and its values (when the format is non-empty) are the
successful decode of the buffer right after the signature. -/
def ParamOk (data : List Nat) (p : Parameter) : Prop :=
  ∃ sig pfmt, (sig, p.name, pfmt) ∈ PARAMS ∧ p.fmt = pfmt ∧
    (pfmt = [] → p.values = []) ∧
    (pfmt ≠ [] →
      readLoop data pfmt (p.offset + sig.length)
        = some (p.values, p.offset + sig.length + sizeFmt pfmt))

/-- Scanner-output characterisation, per entity kind. -/
def EntityOk (data : List Nat) : Entity → Prop
  | .torque r => TRowOk data r
  | .boost r => BRowOk data r
  | .param p => ParamOk data p

-- -------- Plausibility, stated on exact rational values --------

/-- The plausibility property claimed for a torque row: rpm in
[0, 25000], compression in [-300, 300], torque (when present) in
[-4000, 10000] — on the exact values of the stored fields. -/
def TorqueRowPlausible (r : TorqueRow) : Prop :=
  (∃ q, rpmVal r.rpm = some q ∧ 0 ≤ q ∧ q ≤ 25000) ∧
  (∃ q, f32interp r.compression = some q ∧ -300 ≤ q ∧ q ≤ 300) ∧
  (∀ w, r.torque = some w → ∃ q, f32interp w = some q ∧ -4000 ≤ q ∧ q ≤ 10000)

/-- The plausibility property claimed for a boost row: rpm in
[0, 25000] and each of the five throttle values in [0.5, 3.0]. -/
def BoostRowPlausible (r : BoostRow) : Prop :=
  0 ≤ r.rpm ∧ r.rpm ≤ 25000 ∧
  ∀ w ∈ [r.t0, r.t25, r.t50, r.t75, r.t100],
    ∃ q, f32interp w = some q ∧ 1/2 ≤ q ∧ q ≤ 3

-- -------- Write footprints and edits --------

/-- The non-preserved byte positions an entity's write may change: the
payload range behind the signature, minus the leading byte preserved by
ZeroRpm-style writes and the trailing byte preserved by EndVar
writes. -/
def InNR : Entity → Nat → Prop
  | .torque r, j =>
    match r.kind with
    | .zrpm => r.offset + 8 ≤ j ∧ j < r.offset + 16
    | .row_i => r.offset + 7 ≤ j ∧ j < r.offset + 19
    | .row_f => r.offset + 7 ≤ j ∧ j < r.offset + 19
    | .endvar => r.offset + 7 ≤ j ∧ j < r.offset + 15
  | .boost r, j =>
    match r.kind with
    | .b0rpm => r.offset + 8 ≤ j ∧ j < r.offset + 28
    | .brow => r.offset + 7 ≤ j ∧ j < r.offset + 31
  | .param p, j =>
    p.offset + sigLenByName p.name ≤ j ∧
      j < p.offset + sigLenByName p.name + sizeFmt (fmtUsed p)

/-- Well-formedness of a stored rpm value (int32 range or a 32-bit
float pattern). -/
def wfRpm : RpmRep → Bool
  | .inl z => decide (-2147483648 ≤ z) && decide (z < 2147483648)
  | .inr w => decide (w < 4294967296)

/-- Well-formedness of a decoded value (the ranges `struct.pack` would
accept without fault). -/
def WFPVal : PVal → Bool
  | .f w => decide (w < 4294967296)
  | .i z => decide (-2147483648 ≤ z) && decide (z < 2147483648)
  | .b v => decide (v < 256)

/-- Well-formedness of an entity's stored values. -/
def WFEntity : Entity → Bool
  | .torque r =>
    wfRpm r.rpm && decide (r.compression < 4294967296) &&
      (match r.torque with | some w => decide (w < 4294967296) | none => true)
  | .boost r =>
    decide (-2147483648 ≤ r.rpm) && decide (r.rpm < 2147483648) &&
      decide (r.t0 < 4294967296) && decide (r.t25 < 4294967296) &&
      decide (r.t50 < 4294967296) && decide (r.t75 < 4294967296) &&
      decide (r.t100 < 4294967296)
  | .param p => p.values.all WFPVal

/-- `e` is an in-range edit of the scanned entity `o`: same kind and
offset (and, for parameters, name and format), with well-formed new
values. -/
def EditOf : Entity → Entity → Prop
  | .torque o, .torque e => e.offset = o.offset ∧ e.kind = o.kind ∧ WFEntity (.torque e) = true
  | .boost o, .boost e => e.offset = o.offset ∧ e.kind = o.kind ∧ WFEntity (.boost e) = true
  | .param o, .param e =>
    e.offset = o.offset ∧ e.name = o.name ∧ e.fmt = o.fmt ∧ WFEntity (.param e) = true
  | _, _ => False

-- -------- Concrete test vectors used by counterexamples and witnesses --------

/-- The spec's reference vector:
`24 8B 0A B7 71 83 02 | 00 | 00 00 20 41 | 00 00 C8 42`
(ZeroRpm signature, Byte 0, Float32 10.0, Float32 100.0). -/
def c3vec : List Nat :=
  SIG_0RPM ++ [0x00, 0x00, 0x00, 0x20, 0x41, 0x00, 0x00, 0xC8, 0x42]

/-- The reference vector extended with one EndVar row
(rpm 3000, compression 10.0, trailing byte 0). -/
def c3vecExt : List Nat :=
  c3vec ++ SIG_ENDVAR ++ [0xB8, 0x0B, 0x00, 0x00, 0x00, 0x00, 0x20, 0x41, 0x00]

/-- A ZeroRpm row followed by an EndVar row whose compression bytes
decode to 1000.0 (word `0x447A0000`), far outside [-300, 300]. -/
def c2buf : List Nat :=
  c3vec ++ SIG_ENDVAR ++ [0xB8, 0x0B, 0x00, 0x00, 0x00, 0x00, 0x7A, 0x44, 0x00]

/-- A 13-byte buffer holding one FuelConsumption parameter (signature at
offset 0, float payload 0.0 at bytes 5..8) followed by the bytes
`5C C1 C4 00`. -/
def c1buf : List Nat :=
  [0x22, 0x4A, 0xE2, 0xDD, 0x6C, 0x00, 0x00, 0x00, 0x00, 0x5C, 0xC1, 0xC4, 0x00]

/-- The FuelConsumption parameter as scanned from `c1buf`. -/
def c1orig : Parameter := ⟨"FuelConsumption", 0, [.f 0], [.f]⟩

/-- The same parameter with its value edited to the float whose bit
pattern is `0xA5200000` (a small negative float, in range — parameters
have no plausibility gate).  Its little-endian bytes `00 00 20 A5`
complete a RevLimitSetting signature `20 A5 5C C1 C4` at offset 7. -/
def c1edit : Parameter := ⟨"FuelConsumption", 0, [.f 0xA5200000], [.f]⟩

/-- A minimal boost table: zero-rpm row (five 1.0 throttle values)
followed by one plain row (rpm 2000, five 1.5 throttle values). -/
def c6boost : List Nat :=
  SIG_BOOST_0RPM ++ [0x00] ++
    [0x00, 0x00, 0x80, 0x3F, 0x00, 0x00, 0x80, 0x3F, 0x00, 0x00, 0x80, 0x3F,
     0x00, 0x00, 0x80, 0x3F, 0x00, 0x00, 0x80, 0x3F] ++
  SIG_BOOST_ROW ++ [0xD0, 0x07, 0x00, 0x00] ++
    [0x00, 0x00, 0xC0, 0x3F, 0x00, 0x00, 0xC0, 0x3F, 0x00, 0x00, 0xC0, 0x3F,
     0x00, 0x00, 0xC0, 0x3F, 0x00, 0x00, 0xC0, 0x3F]

-- ==================== Theorems ====================

-- -------- Pattern scanner lemmas --------

theorem bfind_some {data sub : List Nat} {start i : Nat}
    (h : bfind data sub start = some i) :
    start ≤ i ∧ i + sub.length ≤ data.length := by
  have hp := List.find?_some h
  simp only [Bool.and_eq_true, decide_eq_true_eq, matchAt] at hp
  exact ⟨hp.1, hp.2.1⟩

theorem bfind_none_of_past {data sub : List Nat} {start : Nat}
    (h : data.length < start) : bfind data sub start = none := by
  apply List.find?_eq_none.mpr
  intro i hi
  simp only [List.mem_range] at hi
  simp only [Bool.and_eq_true, decide_eq_true_eq, not_and, matchAt]
  intro hle
  omega

theorem find_all_fuel_ge (data sub : List Nat) :
    ∀ fuel start, ∀ x ∈ find_all_fuel data sub fuel start, start ≤ x := by
  intro fuel
  induction fuel with
  | zero => intro start x hx; simp [find_all_fuel] at hx
  | succ n ih =>
    intro start x hx
    simp only [find_all_fuel] at hx
    cases hfind : bfind data sub start with
    | none => rw [hfind] at hx; simp at hx
    | some i =>
      rw [hfind] at hx
      rcases List.mem_cons.mp hx with h | h
      · exact h ▸ (bfind_some hfind).1
      · have := ih (i + sub.length) x h
        have := (bfind_some hfind).1
        omega

theorem find_all_fuel_pairwise (data sub : List Nat) :
    ∀ fuel start,
      List.Pairwise (fun a b => a + sub.length ≤ b) (find_all_fuel data sub fuel start) := by
  intro fuel
  induction fuel with
  | zero => intro start; simp [find_all_fuel]
  | succ n ih =>
    intro start
    simp only [find_all_fuel]
    cases hfind : bfind data sub start with
    | none => simp
    | some i =>
      refine List.pairwise_cons.mpr ⟨?_, ih (i + sub.length)⟩
      intro x hx
      exact find_all_fuel_ge data sub n (i + sub.length) x hx

theorem find_all_fuel_stable (data sub : List Nat) (hsub : sub ≠ []) :
    ∀ f₁ f₂ start, data.length + 1 - start ≤ f₁ → data.length + 1 - start ≤ f₂ →
      find_all_fuel data sub f₁ start = find_all_fuel data sub f₂ start := by
  intro f₁
  induction f₁ with
  | zero =>
    intro f₂ start h1 h2
    have hpast : data.length < start := by omega
    cases f₂ with
    | zero => rfl
    | succ m =>
      simp [find_all_fuel, bfind_none_of_past hpast]
  | succ n ih =>
    intro f₂ start h1 h2
    cases f₂ with
    | zero =>
      have hpast : data.length < start := by omega
      simp [find_all_fuel, bfind_none_of_past hpast]
    | succ m =>
      simp only [find_all_fuel]
      cases hfind : bfind data sub start with
      | none => rfl
      | some i =>
        have hi := bfind_some hfind
        have hL : 1 ≤ sub.length := by
          cases sub with
          | nil => exact absurd rfl hsub
          | cons a l => simp
        have hrec : data.length + 1 - (i + sub.length) ≤ n := by omega
        have hrec2 : data.length + 1 - (i + sub.length) ≤ m := by omega
        exact congrArg (i :: ·) (ih m (i + sub.length) hrec hrec2)

theorem find_all_fuel_empty_needle (data : List Nat) :
    ∀ fuel, find_all_fuel data [] fuel 0 = List.replicate fuel 0 := by
  intro fuel
  have hfind : bfind data [] 0 = some 0 := by
    have : List.range (data.length + 1) = 0 :: (List.range data.length).map Nat.succ :=
      List.range_succ_eq_map data.length
    simp [bfind, this, List.find?, matchAt]
  induction fuel with
  | zero => rfl
  | succ n ih => simpa [find_all_fuel, hfind, List.replicate_succ] using ih

-- -------- Codec lemmas --------

theorem readLoop_success (data : List Nat) :
    ∀ (fmt : List Fc) (cur : Nat), cur + sizeFmt fmt ≤ data.length →
      ∃ vals, readLoop data fmt cur = some (vals, cur + sizeFmt fmt) := by
  intro fmt
  induction fmt with
  | nil => intro cur h; exact ⟨[], by simp [readLoop, sizeFmt]⟩
  | cons fc rest ih =>
    intro cur h
    have hsz : sizeFmt (fc :: rest) = fcSize fc + sizeFmt rest := by
      simp [sizeFmt]
    cases fc with
    | f =>
      have hb : cur + 4 ≤ data.length := by simp [fcSize] at hsz; omega
      obtain ⟨vs, hvs⟩ := ih (cur + 4) (by simp [fcSize] at hsz; omega)
      refine ⟨.f (readWord32 data cur) :: vs, ?_⟩
      simp only [readLoop, if_pos hb, hvs]
      simp [fcSize] at hsz
      rw [hsz]; ring_nf
    | i =>
      have hb : cur + 4 ≤ data.length := by simp [fcSize] at hsz; omega
      obtain ⟨vs, hvs⟩ := ih (cur + 4) (by simp [fcSize] at hsz; omega)
      refine ⟨.i (i32ofWord (readWord32 data cur)) :: vs, ?_⟩
      simp only [readLoop, if_pos hb, hvs]
      simp [fcSize] at hsz
      rw [hsz]; ring_nf
    | b =>
      have hb : cur + 1 ≤ data.length := by simp [fcSize] at hsz; omega
      obtain ⟨vs, hvs⟩ := ih (cur + 1) (by simp [fcSize] at hsz; omega)
      refine ⟨.b (data.getD cur 0) :: vs, ?_⟩
      simp only [readLoop, if_pos hb, hvs]
      simp [fcSize] at hsz
      rw [hsz]; ring_nf

theorem readLoop_fail (data : List Nat) :
    ∀ (fmt : List Fc) (cur : Nat), fmt ≠ [] → data.length < cur + sizeFmt fmt →
      readLoop data fmt cur = none := by
  intro fmt
  induction fmt with
  | nil => intro cur h; exact absurd rfl h
  | cons fc rest ih =>
    intro cur _ h
    have hsz : sizeFmt (fc :: rest) = fcSize fc + sizeFmt rest := by simp [sizeFmt]
    rw [hsz] at h
    have hrest0 : rest = [] → sizeFmt rest = 0 := by rintro rfl; simp [sizeFmt]
    cases fc with
    | f =>
      have hfc : fcSize Fc.f = 4 := rfl
      rw [hfc] at h
      by_cases hb : cur + 4 ≤ data.length
      · have hrest : rest ≠ [] := by intro hr; have := hrest0 hr; omega
        have hih := ih (cur + 4) hrest (by omega)
        simp only [readLoop, if_pos hb, hih]
      · simp only [readLoop, if_neg hb]
    | i =>
      have hfc : fcSize Fc.i = 4 := rfl
      rw [hfc] at h
      by_cases hb : cur + 4 ≤ data.length
      · have hrest : rest ≠ [] := by intro hr; have := hrest0 hr; omega
        have hih := ih (cur + 4) hrest (by omega)
        simp only [readLoop, if_pos hb, hih]
      · simp only [readLoop, if_neg hb]
    | b =>
      have hfc : fcSize Fc.b = 1 := rfl
      rw [hfc] at h
      by_cases hb : cur + 1 ≤ data.length
      · have hrest : rest ≠ [] := by intro hr; have := hrest0 hr; omega
        have hih := ih (cur + 1) hrest (by omega)
        simp only [readLoop, if_pos hb, hih]
      · simp only [readLoop, if_neg hb]

-- -------- Sorting lemmas --------

theorem insertSorted_perm (key : α → Int) (x : α) :
    ∀ l : List α, (insertSorted key x l).Perm (x :: l) := by
  intro l
  induction l with
  | nil => exact List.Perm.refl [x]
  | cons y rest ih =>
    simp only [insertSorted]
    by_cases h : key y ≤ key x
    · rw [if_pos h]
      exact (ih.cons y).trans (List.Perm.swap x y rest)
    · rw [if_neg h]

theorem sortByKey_perm (key : α → Int) (l : List α) : (sortByKey key l).Perm l := by
  suffices h : ∀ (l acc : List α),
      (l.foldl (fun acc x => insertSorted key x acc) acc).Perm (acc ++ l) by
    simpa using h l []
  intro l
  induction l with
  | nil => intro acc; simp
  | cons x rest ih =>
    intro acc
    simp only [List.foldl_cons]
    refine (ih (insertSorted key x acc)).trans ?_
    refine (List.Perm.append_right rest (insertSorted_perm key x acc)).trans ?_
    exact List.perm_middle.symm

-- -------- Plausibility bridge (scaled integers to exact rationals) --------

theorem fInRangeScaled_sound {L H : Int} {lo hi : ℚ}
    (hL : (L : ℚ) = lo * 2 ^ (149 : Nat)) (hH : (H : ℚ) = hi * 2 ^ (149 : Nat))
    {w : Nat} (h : fInRangeScaled L H w = true) :
    ∃ q, f32interp w = some q ∧ lo ≤ q ∧ q ≤ hi := by
  unfold fInRangeScaled at h
  cases hn : f32num w with
  | none => rw [hn] at h; simp at h
  | some n =>
    rw [hn] at h
    simp only [Bool.and_eq_true, decide_eq_true_eq] at h
    have hpow : (0 : ℚ) < 2 ^ (149 : Nat) := by positivity
    refine ⟨(n : ℚ) / 2 ^ (149 : Nat), by simp [f32interp, hn], ?_, ?_⟩
    · rw [le_div_iff₀ hpow, ← hL]
      exact_mod_cast h.1
    · rw [div_le_iff₀ hpow, ← hH]
      exact_mod_cast h.2

theorem plausible_comp_sound {w : Nat} (h : plausible_comp w = true) :
    ∃ q, f32interp w = some q ∧ -300 ≤ q ∧ q ≤ 300 :=
  fInRangeScaled_sound (by push_cast; ring) (by push_cast; ring) h

theorem plausible_torque_sound {w : Nat} (h : plausible_torque w = true) :
    ∃ q, f32interp w = some q ∧ -4000 ≤ q ∧ q ≤ 10000 :=
  fInRangeScaled_sound (by push_cast; ring) (by push_cast; ring) h

theorem plausible_rpm_f_sound {w : Nat} (h : plausible_rpm_f w = true) :
    ∃ q, f32interp w = some q ∧ 0 ≤ q ∧ q ≤ 25000 :=
  fInRangeScaled_sound (by push_cast; ring) (by push_cast; ring) h

theorem plausible_throttle_sound {w : Nat} (h : plausible_throttle w = true) :
    ∃ q, f32interp w = some q ∧ 1/2 ≤ q ∧ q ≤ 3 :=
  fInRangeScaled_sound (by push_cast; ring) (by push_cast; ring) h

theorem f32num_ne_nan {w : Nat} {n : Int} (h : f32num w = some n) :
    ¬ w / 8388608 % 256 = 255 := by
  intro he
  simp only [f32num] at h
  rw [if_pos he] at h
  exact absurd h (by simp)

theorem f32repack_id_of_inRange {lo hi : Int} {w : Nat}
    (h : fInRangeScaled lo hi w = true) : f32repack w = w := by
  unfold fInRangeScaled at h
  cases hn : f32num w with
  | none => rw [hn] at h; simp at h
  | some n =>
    have hne := f32num_ne_nan hn
    unfold f32repack
    rw [if_neg (fun hcon => hne hcon.1)]

theorem quietF32_eq {w : Nat} (h : quietF32 w = true) : f32repack w = w := by
  simpa [quietF32] using h

-- -------- Torque scanner characterisation --------

theorem torqueRowsLoop_ok (data : List Nat) :
    ∀ fuel q r, r ∈ torqueRowsLoop data fuel q → TRowOk data r ∧ r.kind ≠ .zrpm := by
  intro fuel
  induction fuel with
  | zero => intro q r h; simp [torqueRowsLoop] at h
  | succ n ih =>
    intro q r h
    simp only [torqueRowsLoop] at h
    by_cases h1 : q < data.length
    case neg => rw [if_neg h1] at h; simp at h
    rw [if_pos h1] at h
    by_cases h2 : matchAt data SIG_0RPM q = true
    case pos => rw [if_pos h2] at h; simp at h
    rw [if_neg h2] at h
    by_cases h3 : matchAt data SIG_ROW_I q = true
    · rw [if_pos h3] at h
      by_cases h4 : q + 19 ≤ data.length
      case neg => rw [if_neg h4] at h; simp at h
      rw [if_pos h4] at h
      by_cases h5 : (plausible_rpm_int (i32ofWord (readWord32 data (q + 7))) &&
          plausible_comp (readWord32 data (q + 11)) &&
          plausible_torque (readWord32 data (q + 15))) = true
      case neg => rw [if_neg h5] at h; simp at h
      rw [if_pos h5] at h
      simp only [Bool.and_eq_true] at h5
      rcases List.mem_cons.mp h with rfl | hmem
      · exact ⟨⟨h4, rfl, rfl, rfl, h5.1.1, h5.1.2, h5.2⟩, by simp⟩
      · exact ih (q + 19) r hmem
    rw [if_neg h3] at h
    by_cases h6 : matchAt data SIG_ROW_F q = true
    · rw [if_pos h6] at h
      by_cases h7 : q + 19 ≤ data.length
      case neg => rw [if_neg h7] at h; simp at h
      rw [if_pos h7] at h
      by_cases h8 : (plausible_rpm_f (readWord32 data (q + 7)) &&
          plausible_comp (readWord32 data (q + 11)) &&
          plausible_torque (readWord32 data (q + 15))) = true
      case neg => rw [if_neg h8] at h; simp at h
      rw [if_pos h8] at h
      simp only [Bool.and_eq_true] at h8
      rcases List.mem_cons.mp h with rfl | hmem
      · exact ⟨⟨h7, rfl, rfl, rfl, h8.1.1, h8.1.2, h8.2⟩, by simp⟩
      · exact ih (q + 19) r hmem
    rw [if_neg h6] at h
    by_cases h9 : matchAt data SIG_ENDVAR q = true
    · rw [if_pos h9] at h
      by_cases h10 : q + 16 ≤ data.length
      case neg => rw [if_neg h10] at h; simp at h
      rw [if_pos h10] at h
      rcases List.mem_singleton.mp h with rfl
      exact ⟨⟨h10, rfl, rfl, rfl⟩, by simp⟩
    · rw [if_neg h9] at h; simp at h

theorem parse_torque_tables_inv (data : List Nat) (t : TorqueTable)
    (ht : t ∈ parse_torque_tables data) :
    ∃ off0,
      t.rows = sortByKey (fun r => rpmScaled r.rpm)
        ((⟨.inl 0, readWord32 data (off0 + 8), some (readWord32 data (off0 + 12)),
            off0, .zrpm⟩ : TorqueRow) :: torqueRowsLoop data (data.length + 1) (off0 + 16)) ∧
      off0 + 16 ≤ data.length ∧
      plausible_comp (readWord32 data (off0 + 8)) = true ∧
      plausible_torque (readWord32 data (off0 + 12)) = true ∧
      2 ≤ t.rows.length := by
  simp only [parse_torque_tables, List.mem_filterMap] at ht
  obtain ⟨off0, _hmem, hcand⟩ := ht
  by_cases h1 : off0 + 16 ≤ data.length
  case neg => rw [if_neg h1] at hcand; simp at hcand
  rw [if_pos h1] at hcand
  by_cases h2 : (plausible_comp (readWord32 data (off0 + 8)) &&
      plausible_torque (readWord32 data (off0 + 12))) = true
  case neg => rw [if_neg h2] at hcand; simp at hcand
  rw [if_pos h2] at hcand
  by_cases h3 : 2 ≤ ((⟨.inl 0, readWord32 data (off0 + 8),
      some (readWord32 data (off0 + 12)), off0, .zrpm⟩ : TorqueRow) ::
      torqueRowsLoop data (data.length + 1) (off0 + 16)).length
  case neg => rw [if_neg h3] at hcand; simp at hcand
  rw [if_pos h3] at hcand
  simp only [Option.some.injEq] at hcand
  simp only [Bool.and_eq_true] at h2
  refine ⟨off0, ?_, h1, h2.1, h2.2, ?_⟩
  · rw [← hcand]
  · rw [← hcand]
    simp only [TorqueTable.rows]
    have := (sortByKey_perm (fun r : TorqueRow => rpmScaled r.rpm)
      ((⟨.inl 0, readWord32 data (off0 + 8), some (readWord32 data (off0 + 12)),
          off0, .zrpm⟩ : TorqueRow) :: torqueRowsLoop data (data.length + 1) (off0 + 16))).length_eq
    omega

-- -------- Boost scanner characterisation --------

theorem boostRowsLoop_ok (data : List Nat) :
    ∀ fuel q r, r ∈ boostRowsLoop data fuel q → BRowOk data r ∧ r.kind ≠ .b0rpm := by
  intro fuel
  induction fuel with
  | zero => intro q r h; simp [boostRowsLoop] at h
  | succ n ih =>
    intro q r h
    simp only [boostRowsLoop] at h
    by_cases h1 : q < data.length
    case neg => rw [if_neg h1] at h; simp at h
    rw [if_pos h1] at h
    by_cases h2 : matchAt data SIG_BOOST_0RPM q = true
    case pos => rw [if_pos h2] at h; simp at h
    rw [if_neg h2] at h
    by_cases h3 : matchAt data SIG_BOOST_ROW q = true
    · rw [if_pos h3] at h
      by_cases h4 : q + 31 ≤ data.length
      case neg => rw [if_neg h4] at h; simp at h
      rw [if_pos h4] at h
      by_cases h5 : (plausible_rpm_int (i32ofWord (readWord32 data (q + 7))) &&
          (plausible_throttle (readWord32 data (q + 11)) &&
            plausible_throttle (readWord32 data (q + 15)) &&
            plausible_throttle (readWord32 data (q + 19)) &&
            plausible_throttle (readWord32 data (q + 23)) &&
            plausible_throttle (readWord32 data (q + 27)))) = true
      case neg => rw [if_neg h5] at h; simp at h
      rw [if_pos h5] at h
      simp only [Bool.and_eq_true] at h5
      rcases List.mem_cons.mp h with rfl | hmem
      · exact ⟨⟨h4, rfl, rfl, rfl, rfl, rfl, rfl, h5.1, h5.2.1.1.1.1, h5.2.1.1.1.2,
          h5.2.1.1.2, h5.2.1.2, h5.2.2⟩, by simp⟩
      · exact ih (q + 31) r hmem
    · rw [if_neg h3] at h; simp at h

theorem parse_boost_tables_inv (data : List Nat) (t : BoostTable)
    (ht : t ∈ parse_boost_tables data) :
    ∃ off0,
      t.rows = sortByKey (fun r => r.rpm)
        ((⟨0, readWord32 data (off0 + 8), readWord32 data (off0 + 12),
            readWord32 data (off0 + 16), readWord32 data (off0 + 20),
            readWord32 data (off0 + 24), off0, .b0rpm⟩ : BoostRow) ::
          boostRowsLoop data (data.length + 1) (off0 + 28)) ∧
      off0 + 28 ≤ data.length ∧
      plausible_throttle (readWord32 data (off0 + 8)) = true ∧
      plausible_throttle (readWord32 data (off0 + 12)) = true ∧
      plausible_throttle (readWord32 data (off0 + 16)) = true ∧
      plausible_throttle (readWord32 data (off0 + 20)) = true ∧
      plausible_throttle (readWord32 data (off0 + 24)) = true ∧
      2 ≤ t.rows.length := by
  simp only [parse_boost_tables, List.mem_filterMap] at ht
  obtain ⟨off0, _hmem, hcand⟩ := ht
  by_cases h1 : off0 + 28 ≤ data.length
  case neg => rw [if_neg h1] at hcand; simp at hcand
  rw [if_pos h1] at hcand
  by_cases h2 : (plausible_throttle (readWord32 data (off0 + 8)) &&
      plausible_throttle (readWord32 data (off0 + 12)) &&
      plausible_throttle (readWord32 data (off0 + 16)) &&
      plausible_throttle (readWord32 data (off0 + 20)) &&
      plausible_throttle (readWord32 data (off0 + 24))) = true
  case neg => rw [if_neg h2] at hcand; simp at hcand
  rw [if_pos h2] at hcand
  by_cases h3 : 2 ≤ ((⟨0, readWord32 data (off0 + 8), readWord32 data (off0 + 12),
      readWord32 data (off0 + 16), readWord32 data (off0 + 20),
      readWord32 data (off0 + 24), off0, .b0rpm⟩ : BoostRow) ::
      boostRowsLoop data (data.length + 1) (off0 + 28)).length
  case neg => rw [if_neg h3] at hcand; simp at hcand
  rw [if_pos h3] at hcand
  simp only [Option.some.injEq] at hcand
  simp only [Bool.and_eq_true] at h2
  refine ⟨off0, ?_, h1, h2.1.1.1.1, h2.1.1.1.2, h2.1.1.2, h2.1.2, h2.2, ?_⟩
  · rw [← hcand]
  · rw [← hcand]
    simp only [BoostTable.rows]
    have := (sortByKey_perm (fun r : BoostRow => r.rpm)
      ((⟨0, readWord32 data (off0 + 8), readWord32 data (off0 + 12),
          readWord32 data (off0 + 16), readWord32 data (off0 + 20),
          readWord32 data (off0 + 24), off0, .b0rpm⟩ : BoostRow) ::
        boostRowsLoop data (data.length + 1) (off0 + 28))).length_eq
    omega

theorem parse_torque_rows_ok (data : List Nat) {t : TorqueTable} {r : TorqueRow}
    (ht : t ∈ parse_torque_tables data) (hr : r ∈ t.rows) : TRowOk data r := by
  obtain ⟨off0, hrows, hlen, hpc, hpt, _⟩ := parse_torque_tables_inv data t ht
  rw [hrows] at hr
  have hr' := (sortByKey_perm (fun r : TorqueRow => rpmScaled r.rpm) _).mem_iff.mp hr
  rcases List.mem_cons.mp hr' with rfl | hmem
  · exact ⟨hlen, rfl, rfl, rfl, hpc, hpt⟩
  · exact (torqueRowsLoop_ok data _ _ r hmem).1

theorem parse_boost_rows_ok (data : List Nat) {t : BoostTable} {r : BoostRow}
    (ht : t ∈ parse_boost_tables data) (hr : r ∈ t.rows) : BRowOk data r := by
  obtain ⟨off0, hrows, hlen, p0, p25, p50, p75, p100, _⟩ := parse_boost_tables_inv data t ht
  rw [hrows] at hr
  have hr' := (sortByKey_perm (fun r : BoostRow => r.rpm) _).mem_iff.mp hr
  rcases List.mem_cons.mp hr' with rfl | hmem
  · exact ⟨hlen, rfl, rfl, rfl, rfl, rfl, rfl, p0, p25, p50, p75, p100⟩
  · exact (boostRowsLoop_ok data _ _ r hmem).1

theorem TRowOk_plausible {data : List Nat} {r : TorqueRow} (hok : TRowOk data r)
    (hk : r.kind ≠ .endvar) : TorqueRowPlausible r := by
  obtain ⟨rpm, comp, tq, off, kind⟩ := r
  cases kind with
  | zrpm =>
    obtain ⟨_, hrpm, hcomp, htq, hpc, hpt⟩ := hok
    simp only at hrpm htq hcomp
    subst hrpm htq hcomp
    refine ⟨⟨0, by simp [rpmVal], le_refl 0, by norm_num⟩, plausible_comp_sound hpc, ?_⟩
    intro w hw
    obtain rfl := Option.some_injective _ hw.symm
    exact plausible_torque_sound hpt
  | row_i =>
    obtain ⟨_, hrpm, hcomp, htq, hpr, hpc, hpt⟩ := hok
    simp only at hrpm htq hcomp
    subst hrpm htq hcomp
    simp only [plausible_rpm_int, Bool.and_eq_true, decide_eq_true_eq] at hpr
    refine ⟨⟨(i32ofWord (readWord32 data (off + 7)) : ℚ), rfl, ?_, ?_⟩,
      plausible_comp_sound hpc, ?_⟩
    · exact_mod_cast hpr.1
    · exact_mod_cast hpr.2
    · intro w hw
      obtain rfl := Option.some_injective _ hw.symm
      exact plausible_torque_sound hpt
  | row_f =>
    obtain ⟨_, hrpm, hcomp, htq, hpr, hpc, hpt⟩ := hok
    simp only at hrpm htq hcomp
    subst hrpm htq hcomp
    obtain ⟨q, hq, hq0, hq1⟩ := plausible_rpm_f_sound hpr
    refine ⟨⟨q, hq, hq0, hq1⟩, plausible_comp_sound hpc, ?_⟩
    intro w hw
    obtain rfl := Option.some_injective _ hw.symm
    exact plausible_torque_sound hpt
  | endvar => exact absurd rfl hk

theorem BRowOk_plausible {data : List Nat} {r : BoostRow} (hok : BRowOk data r) :
    BoostRowPlausible r := by
  obtain ⟨rpm, t0, t25, t50, t75, t100, off, kind⟩ := r
  cases kind with
  | b0rpm =>
    obtain ⟨_, hrpm, h0, h25, h50, h75, h100, p0, p25, p50, p75, p100⟩ := hok
    simp only at hrpm h0 h25 h50 h75 h100
    subst hrpm h0 h25 h50 h75 h100
    refine ⟨le_refl 0, by norm_num, ?_⟩
    intro w hw
    simp only [List.mem_cons, List.not_mem_nil, or_false] at hw
    rcases hw with rfl | rfl | rfl | rfl | rfl
    · exact plausible_throttle_sound p0
    · exact plausible_throttle_sound p25
    · exact plausible_throttle_sound p50
    · exact plausible_throttle_sound p75
    · exact plausible_throttle_sound p100
  | brow =>
    obtain ⟨_, hrpm, h0, h25, h50, h75, h100, hpr, p0, p25, p50, p75, p100⟩ := hok
    simp only at hrpm h0 h25 h50 h75 h100
    subst h0 h25 h50 h75 h100
    simp only [plausible_rpm_int, Bool.and_eq_true, decide_eq_true_eq] at hpr
    refine ⟨hpr.1, hpr.2, ?_⟩
    intro w hw
    simp only [List.mem_cons, List.not_mem_nil, or_false] at hw
    rcases hw with rfl | rfl | rfl | rfl | rfl
    · exact plausible_throttle_sound p0
    · exact plausible_throttle_sound p25
    · exact plausible_throttle_sound p50
    · exact plausible_throttle_sound p75
    · exact plausible_throttle_sound p100

-- -------- Claim C2 --------

set_option maxRecDepth 40000 in
/-- Counterexample to C2: the scanner appends EndVar rows WITHOUT any
plausibility check, so a table can contain an EndVar row whose
compression decodes to 1000.0, outside [-300, 300]. -/
theorem c2_endvar_unchecked :
    ¬ (∀ t ∈ parse_torque_tables c2buf, ∀ r ∈ t.rows, TorqueRowPlausible r) := by
  intro hall
  have htb : (⟨0, [⟨.inl 0, 0x41200000, some 0x42C80000, 0, .zrpm⟩,
      ⟨.inl 3000, 0x447A0000, none, 16, .endvar⟩]⟩ : TorqueTable) ∈
      parse_torque_tables c2buf := by
    have h : parse_torque_tables c2buf =
        [⟨0, [⟨.inl 0, 0x41200000, some 0x42C80000, 0, .zrpm⟩,
          ⟨.inl 3000, 0x447A0000, none, 16, .endvar⟩]⟩] := by decide
    rw [h]
    exact List.mem_singleton.mpr rfl
  have hpl := hall _ htb (⟨.inl 3000, 0x447A0000, none, 16, .endvar⟩ : TorqueRow)
    (by simp)
  obtain ⟨_, ⟨q, hq, _, hq300⟩, _⟩ := hpl
  have hv : f32interp 0x447A0000 = some 1000 := by norm_num [f32interp, f32num]
  rw [hv] at hq
  obtain rfl := Option.some_injective _ hq.symm
  norm_num at hq300

/-- Claim C2 as amended: every non-EndVar row of every torque table has
rpm in [0, 25000], compression in [-300, 300] and torque (when
present) in [-4000, 10000]; every row of every boost table has rpm in
[0, 25000] and all five throttle values in [0.5, 3.0].  (EndVar torque
rows are appended without plausibility checks and are exempt.) -/
theorem c2_plausibility (data : List Nat) :
    (∀ t ∈ parse_torque_tables data, ∀ r ∈ t.rows,
      r.kind ≠ .endvar → TorqueRowPlausible r) ∧
    (∀ t ∈ parse_boost_tables data, ∀ r ∈ t.rows, BoostRowPlausible r) := by
  constructor
  · intro t ht r hr hk
    exact TRowOk_plausible (parse_torque_rows_ok data ht hr) hk
  · intro t ht r hr
    exact BRowOk_plausible (parse_boost_rows_ok data ht hr)

set_option maxRecDepth 40000 in
/-- Witness for C2 at a concrete torque table and boost table. -/
theorem c2_plausibility_witness :
    TorqueRowPlausible ⟨.inl 0, 0x41200000, some 0x42C80000, 0, .zrpm⟩ ∧
      BoostRowPlausible ⟨0, 0x3F800000, 0x3F800000, 0x3F800000, 0x3F800000, 0x3F800000,
        0, .b0rpm⟩ := by
  constructor
  · refine (c2_plausibility c3vecExt).1
      ⟨0, [⟨.inl 0, 0x41200000, some 0x42C80000, 0, .zrpm⟩,
        ⟨.inl 3000, 0x41200000, none, 16, .endvar⟩]⟩ ?_
      ⟨.inl 0, 0x41200000, some 0x42C80000, 0, .zrpm⟩ (by simp) (by decide)
    have h : parse_torque_tables c3vecExt =
        [⟨0, [⟨.inl 0, 0x41200000, some 0x42C80000, 0, .zrpm⟩,
          ⟨.inl 3000, 0x41200000, none, 16, .endvar⟩]⟩] := by decide
    rw [h]
    exact List.mem_singleton.mpr rfl
  · refine (c2_plausibility c6boost).2
      ⟨0, [⟨0, 0x3F800000, 0x3F800000, 0x3F800000, 0x3F800000, 0x3F800000, 0, .b0rpm⟩,
        ⟨2000, 0x3FC00000, 0x3FC00000, 0x3FC00000, 0x3FC00000, 0x3FC00000, 28, .brow⟩]⟩ ?_
      ⟨0, 0x3F800000, 0x3F800000, 0x3F800000, 0x3F800000, 0x3F800000, 0, .b0rpm⟩ (by simp)
    have h : parse_boost_tables c6boost =
        [⟨0, [⟨0, 0x3F800000, 0x3F800000, 0x3F800000, 0x3F800000, 0x3F800000, 0, .b0rpm⟩,
          ⟨2000, 0x3FC00000, 0x3FC00000, 0x3FC00000, 0x3FC00000, 0x3FC00000, 28, .brow⟩]⟩] := by
      decide
    rw [h]
    exact List.mem_singleton.mpr rfl

-- -------- Claim C6 --------

/-- Claim C6: every torque table and every boost table returned by the
scanners has at least 2 rows, exactly one of which is the ZeroRpm row
(so there is at least one subsequent row); smaller candidates are
discarded entirely. -/
theorem c6_table_min_size (data : List Nat) :
    (∀ t ∈ parse_torque_tables data, 2 ≤ t.rows.length ∧
      t.rows.countP (fun r => r.kind == TKind.zrpm) = 1) ∧
    (∀ t ∈ parse_boost_tables data, 2 ≤ t.rows.length ∧
      t.rows.countP (fun r => r.kind == BKind.b0rpm) = 1) := by
  constructor
  · intro t ht
    obtain ⟨off0, hrows, _, _, _, hlen⟩ := parse_torque_tables_inv data t ht
    refine ⟨hlen, ?_⟩
    rw [hrows]
    rw [List.Perm.countP_eq _ (sortByKey_perm (fun r : TorqueRow => rpmScaled r.rpm) _)]
    rw [List.countP_cons_of_pos _ _ (by simp)]
    have hz : (torqueRowsLoop data (data.length + 1) (off0 + 16)).countP
        (fun r => r.kind == TKind.zrpm) = 0 := by
      apply List.countP_eq_zero.mpr
      intro r hr
      have := (torqueRowsLoop_ok data _ _ r hr).2
      simpa using this
    omega
  · intro t ht
    obtain ⟨off0, hrows, _, _, _, _, _, _, hlen⟩ := parse_boost_tables_inv data t ht
    refine ⟨hlen, ?_⟩
    rw [hrows]
    rw [List.Perm.countP_eq _ (sortByKey_perm (fun r : BoostRow => r.rpm) _)]
    rw [List.countP_cons_of_pos _ _ (by simp)]
    have hz : (boostRowsLoop data (data.length + 1) (off0 + 28)).countP
        (fun r => r.kind == BKind.b0rpm) = 0 := by
      apply List.countP_eq_zero.mpr
      intro r hr
      have := (boostRowsLoop_ok data _ _ r hr).2
      simpa using this
    omega

set_option maxRecDepth 40000 in
/-- Witness for C6 at a concrete torque table and boost table. -/
theorem c6_table_min_size_witness :
    2 ≤ (⟨0, [⟨.inl 0, 0x41200000, some 0x42C80000, 0, .zrpm⟩,
      ⟨.inl 3000, 0x41200000, none, 16, .endvar⟩]⟩ : TorqueTable).rows.length ∧
    2 ≤ (⟨0, [⟨0, 0x3F800000, 0x3F800000, 0x3F800000, 0x3F800000, 0x3F800000, 0, .b0rpm⟩,
      ⟨2000, 0x3FC00000, 0x3FC00000, 0x3FC00000, 0x3FC00000, 0x3FC00000, 28, .brow⟩]⟩ :
        BoostTable).rows.length := by
  constructor
  · refine ((c6_table_min_size c3vecExt).1 _ ?_).1
    have h : parse_torque_tables c3vecExt =
        [⟨0, [⟨.inl 0, 0x41200000, some 0x42C80000, 0, .zrpm⟩,
          ⟨.inl 3000, 0x41200000, none, 16, .endvar⟩]⟩] := by decide
    rw [h]
    exact List.mem_singleton.mpr rfl
  · refine ((c6_table_min_size c6boost).2 _ ?_).1
    have h : parse_boost_tables c6boost =
        [⟨0, [⟨0, 0x3F800000, 0x3F800000, 0x3F800000, 0x3F800000, 0x3F800000, 0, .b0rpm⟩,
          ⟨2000, 0x3FC00000, 0x3FC00000, 0x3FC00000, 0x3FC00000, 0x3FC00000, 28, .brow⟩]⟩] := by
      decide
    rw [h]
    exact List.mem_singleton.mpr rfl

-- -------- Claim C5 --------

/-- Claim C5: for every buffer and every non-empty needle, the offsets
yielded by `find_all` are strictly ascending and no two yielded offsets
`i < j` satisfy `j < i + L` (after a match at `i` the next search
begins at `i + L`, so consecutive — hence all — pairs are at least the
needle length apart). -/
theorem c5_find_all_nonoverlap (data sub : List Nat) (hsub : sub ≠ []) :
    List.Pairwise (fun a b => a + sub.length ≤ b) (find_all data sub) ∧
      List.Pairwise (fun a b => a < b) (find_all data sub) := by
  have hp := find_all_fuel_pairwise data sub (data.length + 1) 0
  have hL : 1 ≤ sub.length := by
    cases sub with
    | nil => exact absurd rfl hsub
    | cons a l => simp
  exact ⟨hp, hp.imp (fun h => by omega)⟩

/-- Witness for C5 on the buffer `AA AA AA` with needle `AA AA`. -/
theorem c5_find_all_nonoverlap_witness :
    ([0xAA, 0xAA] : List Nat) ≠ [] ∧
      List.Pairwise (fun a b => a + 2 ≤ b) (find_all [0xAA, 0xAA, 0xAA] [0xAA, 0xAA]) := by
  refine ⟨by simp, ?_⟩
  have h := (c5_find_all_nonoverlap [0xAA, 0xAA, 0xAA] [0xAA, 0xAA] (by simp)).1
  simpa using h

-- -------- Claim C9 --------

/-- Claim C9: for a non-empty needle the generator is finite — with
fuel `data.length + 1` the yielded list is already a fixpoint (extra
fuel changes nothing), because the search start strictly increases by
at least the needle length after each match and is bounded by the
buffer length.  Non-emptiness is necessary: with an empty needle the
fuelled generator yields one offset per unit of fuel, i.e. an
unbounded sequence. -/
theorem c9_find_all_finite :
    (∀ (data sub : List Nat), sub ≠ [] → ∀ fuel, data.length + 1 ≤ fuel →
      find_all_fuel data sub fuel 0 = find_all data sub) ∧
    (∀ (data : List Nat) (fuel : Nat), (find_all_fuel data [] fuel 0).length = fuel) := by
  constructor
  · intro data sub hsub fuel hfuel
    exact find_all_fuel_stable data sub hsub fuel (data.length + 1) 0 (by omega) (by omega)
  · intro data fuel
    rw [find_all_fuel_empty_needle data fuel]
    exact List.length_replicate fuel 0

/-- Witness for C9 at a concrete buffer, needle and fuel. -/
theorem c9_find_all_finite_witness :
    find_all_fuel [1, 2, 1, 2] [1, 2] 100 0 = find_all [1, 2, 1, 2] [1, 2] ∧
      (find_all_fuel [1, 2, 1, 2] [] 7 0).length = 7 := by
  constructor
  · exact c9_find_all_finite.1 [1, 2, 1, 2] [1, 2] (by decide) 100 (by decide)
  · exact c9_find_all_finite.2 [1, 2, 1, 2] 7

-- -------- Claim C7 --------

/-- Claim C7: `read_by_fmt` is atomic on failure and exact on success:
when the bytes remaining do not cover the format (each Float32/Int32
field needs 4 bytes, each Byte needs 1), it returns `none` paired with
the ORIGINAL offset; when they do, it returns decoded values and
`newOffset = pos + sizeFmt fmtseq`. -/
theorem c7_read_by_fmt_atomic (data : List Nat) (pos : Nat) (fmtseq : List Fc) :
    (fmtseq ≠ [] → data.length < pos + sizeFmt fmtseq →
      read_by_fmt data pos fmtseq = (none, pos)) ∧
    (pos + sizeFmt fmtseq ≤ data.length →
      ∃ vals, read_by_fmt data pos fmtseq = (some vals, pos + sizeFmt fmtseq)) := by
  constructor
  · intro hne hlt
    unfold read_by_fmt
    rw [readLoop_fail data fmtseq pos hne hlt]
  · intro hle
    obtain ⟨vals, hv⟩ := readLoop_success data fmtseq pos hle
    exact ⟨vals, by unfold read_by_fmt; rw [hv]⟩

/-- Witness for C7: both clauses discharged on concrete buffers. -/
theorem c7_read_by_fmt_atomic_witness :
    (read_by_fmt [0] 0 [.f] = (none, 0)) ∧
      (∃ vals, read_by_fmt [0, 0, 0x80, 0x3F, 0xFF] 0 [.f, .b] = (some vals, 5)) :=
  ⟨(c7_read_by_fmt_atomic [0] 0 [.f]).1 (by simp) (by simp [sizeFmt, fcSize]),
   by
    have h := (c7_read_by_fmt_atomic [0, 0, 0x80, 0x3F, 0xFF] 0 [.f, .b]).2
      (by simp [sizeFmt, fcSize])
    simpa [sizeFmt, fcSize] using h⟩

-- -------- Engine layout detector lemmas --------

theorem getLast?_mem_list {l : List α} {g : α} (h : l.getLast? = some g) : g ∈ l := by
  obtain ⟨hne, rfl⟩ := List.mem_getLast?_eq_getLast (Option.mem_def.mpr h)
  exact List.getLast_mem hne

theorem last_of_pairwise_lt {l : List Nat} {g : Nat}
    (hp : l.Pairwise (fun a b => a < b)) (hg : l.getLast? = some g) :
    ∀ x ∈ l, x ≤ g := by
  induction l with
  | nil => simp at hg
  | cons a rest ih =>
    cases rest with
    | nil =>
      simp only [List.getLast?_singleton, Option.some.injEq] at hg
      intro x hx
      simp only [List.mem_singleton] at hx
      omega
    | cons b rest2 =>
      rw [List.getLast?_cons_cons] at hg
      intro x hx
      rcases List.mem_cons.mp hx with rfl | hx2
      · have hga : g ∈ b :: rest2 := getLast?_mem_list hg
        have := List.pairwise_cons.mp hp
        exact le_of_lt (this.1 g hga)
      · exact ih (List.pairwise_cons.mp hp).2 hg x hx2

theorem brfind_none {data sub : List Nat} (h : brfind data sub = none) :
    ∀ i, matchAt data sub i = false := by
  intro i
  unfold brfind at h
  rw [List.getLast?_eq_none_iff] at h
  by_cases hi : i < data.length + 1
  · have := List.filter_eq_nil_iff.mp h i (List.mem_range.mpr hi)
    simpa using this
  · simp only [matchAt, Bool.and_eq_false_iff, decide_eq_false_iff_not]
    left
    omega

theorem brfind_some {data sub : List Nat} {i : Nat} (h : brfind data sub = some i) :
    matchAt data sub i = true ∧ ∀ j, i < j → matchAt data sub j = false := by
  unfold brfind at h
  have hmem : i ∈ (List.range (data.length + 1)).filter (fun i => matchAt data sub i) :=
    getLast?_mem_list h
  have hmatch : matchAt data sub i = true := by
    have := List.mem_filter.mp hmem
    simpa using this.2
  refine ⟨hmatch, ?_⟩
  intro j hj
  by_contra hcon
  have hjt : matchAt data sub j = true := by
    cases hv : matchAt data sub j with
    | false => exact absurd hv hcon
    | true => rfl
  have hjlen : j + sub.length ≤ data.length := by
    have := (Bool.and_eq_true _ _).mp hjt
    simpa using this.1
  have hjmem : j ∈ (List.range (data.length + 1)).filter (fun i => matchAt data sub i) := by
    refine List.mem_filter.mpr ⟨List.mem_range.mpr (by omega), by simpa using hjt⟩
  have hsorted : ((List.range (data.length + 1)).filter
      (fun i => matchAt data sub i)).Pairwise (fun a b => a < b) :=
    (List.pairwise_lt_range _).filter _
  have := last_of_pairwise_lt hsorted h j hjmem
  omega

theorem detectLoop_spec (dataLen tailLen : Nat) (tail : List Nat) :
    ∀ codes : List (List Nat × String),
      (detectLoop dataLen tailLen tail codes = ("Unknown/Not found", none) ∧
        ∀ e ∈ codes, brfind tail e.1 = none) ∨
      (∃ pre k label post i, codes = pre ++ (k, label) :: post ∧
        (∀ e ∈ pre, brfind tail e.1 = none) ∧ brfind tail k = some i ∧
        detectLoop dataLen tailLen tail codes = (label, some (dataLen - tailLen + i))) := by
  intro codes
  induction codes with
  | nil => left; exact ⟨rfl, by simp⟩
  | cons e rest ih =>
    obtain ⟨k, label⟩ := e
    cases hf : brfind tail k with
    | some i =>
      right
      exact ⟨[], k, label, rest, i, by simp, by simp, hf, by simp [detectLoop, hf]⟩
    | none =>
      have hstep : detectLoop dataLen tailLen tail ((k, label) :: rest) =
          detectLoop dataLen tailLen tail rest := by
        simp [detectLoop, hf]
      rcases ih with ⟨heq, hall⟩ | ⟨pre, k', label', post, i, hcodes, hpre, hk', heq⟩
      · left
        refine ⟨hstep.trans heq, ?_⟩
        intro e he
        rcases List.mem_cons.mp he with rfl | he2
        · exact hf
        · exact hall e he2
      · right
        refine ⟨(k, label) :: pre, k', label', post, i, by rw [hcodes, List.cons_append], ?_,
          hk', hstep.trans heq⟩
        intro e he
        rcases List.mem_cons.mp he with rfl | he2
        · exact hf
        · exact hpre e he2

-- -------- Claim C8 --------

/-- Claim C8: `detect_engine_layout` inspects only the last 64 bytes
(the whole buffer when it has at most 64 bytes): every clause below is
phrased in terms of that tail.  It tries the layout codes in registry
order and, for the first code occurring in the tail, returns its label
with the absolute offset of that code's LAST occurrence; when no code
occurs it returns the not-found label with no offset. -/
theorem c8_detect_engine_layout (data : List Nat) :
    (data.length ≤ 64 → layoutTail data = data) ∧
    (64 < data.length →
      layoutTail data = data.drop (data.length - 64) ∧ (layoutTail data).length = 64) ∧
    ((detect_engine_layout data = ("Unknown/Not found", none) ∧
        ∀ e ∈ ENGINE_LAYOUT_CODES, ∀ i, matchAt (layoutTail data) e.1 i = false) ∨
      (∃ pre k label post i, ENGINE_LAYOUT_CODES = pre ++ (k, label) :: post ∧
        (∀ e ∈ pre, ∀ j, matchAt (layoutTail data) e.1 j = false) ∧
        matchAt (layoutTail data) k i = true ∧
        (∀ j, i < j → matchAt (layoutTail data) k j = false) ∧
        detect_engine_layout data =
          (label, some (data.length - (layoutTail data).length + i)))) := by
  refine ⟨?_, ?_, ?_⟩
  · intro h
    unfold layoutTail
    rw [if_neg (by omega)]
  · intro h
    unfold layoutTail
    rw [if_pos h]
    refine ⟨rfl, ?_⟩
    rw [List.length_drop]
    omega
  · rcases detectLoop_spec data.length (layoutTail data).length (layoutTail data)
        ENGINE_LAYOUT_CODES with ⟨heq, hall⟩ | ⟨pre, k, label, post, i, hcodes, hpre, hk, heq⟩
    · left
      refine ⟨heq, ?_⟩
      intro e he i
      exact brfind_none (hall e he) i
    · right
      have hks := brfind_some hk
      exact ⟨pre, k, label, post, i, hcodes,
        fun e he j => brfind_none (hpre e he) j, hks.1, hks.2, heq⟩

/-- Witness for C8: a short buffer is its own tail; a 100-byte buffer's
tail has length 64. -/
theorem c8_detect_engine_layout_witness :
    layoutTail ((List.replicate 10 0) ++ [0xD7, 0x2D, 0x3B]) =
      (List.replicate 10 0) ++ [0xD7, 0x2D, 0x3B] ∧
    (layoutTail (List.replicate 100 0)).length = 64 := by
  constructor
  · exact (c8_detect_engine_layout _).1 (by decide)
  · exact ((c8_detect_engine_layout _).2.1 (by decide)).2

-- -------- Byte-write lemmas --------

theorem set_getD_ne (a : Nat) :
    ∀ (l : List Nat) (i j : Nat), i ≠ j → (l.set i a).getD j 0 = l.getD j 0 := by
  intro l
  induction l with
  | nil => intros; rfl
  | cons x xs ih =>
    intro i j hij
    cases i with
    | zero =>
      cases j with
      | zero => exact absurd rfl hij
      | succ j2 => rfl
    | succ i2 =>
      cases j with
      | zero => rfl
      | succ j2 => exact ih i2 j2 (by omega)

theorem set_getD_eq (a : Nat) :
    ∀ (l : List Nat) (j : Nat), j < l.length → (l.set j a).getD j 0 = a := by
  intro l
  induction l with
  | nil => intro j h; simp at h
  | cons x xs ih =>
    intro j h
    cases j with
    | zero => rfl
    | succ j2 => exact ih j2 (by simpa using h)

theorem set_getD_self :
    ∀ (l : List Nat) (i : Nat), l.set i (l.getD i 0) = l := by
  intro l
  induction l with
  | nil => intros; rfl
  | cons x xs ih =>
    intro i
    cases i with
    | zero => rfl
    | succ i2 => simp only [List.getD_cons_succ, List.set_cons_succ]; rw [ih]

theorem length_writeBytes : ∀ (bs data : List Nat) (off : Nat),
    (writeBytes data off bs).length = data.length := by
  intro bs
  induction bs with
  | nil => intros; rfl
  | cons b rest ih =>
    intro data off
    simp only [writeBytes]
    rw [ih, List.length_set]

theorem writeBytes_getD_outside : ∀ (bs data : List Nat) (off j : Nat),
    j < off ∨ off + bs.length ≤ j →
      (writeBytes data off bs).getD j 0 = data.getD j 0 := by
  intro bs
  induction bs with
  | nil => intros; rfl
  | cons b rest ih =>
    intro data off j hj
    simp only [List.length_cons] at hj
    simp only [writeBytes]
    rw [ih (data.set off b) (off + 1) j (by omega)]
    exact set_getD_ne b data off j (by omega)

theorem writeBytes_getD_inside : ∀ (bs data : List Nat) (off k : Nat),
    k < bs.length → off + k < data.length →
      (writeBytes data off bs).getD (off + k) 0 = bs.getD k 0 := by
  intro bs
  induction bs with
  | nil => intro data off k h; simp at h
  | cons b rest ih =>
    intro data off k hk hlen
    simp only [writeBytes]
    cases k with
    | zero =>
      rw [writeBytes_getD_outside rest (data.set off b) (off + 1) (off + 0) (by omega)]
      simp only [Nat.add_zero, List.getD_cons_zero]
      exact set_getD_eq b data off (by omega)
    | succ k2 =>
      have harith : off + (k2 + 1) = (off + 1) + k2 := by omega
      rw [harith]
      rw [ih (data.set off b) (off + 1) k2 (by simpa using hk) (by rw [List.length_set]; omega)]
      rfl

theorem writeBytes_cons_self (buf : List Nat) (off : Nat) (bs : List Nat) :
    writeBytes buf off (buf.getD off 0 :: bs) = writeBytes buf (off + 1) bs := by
  simp only [writeBytes]
  rw [set_getD_self]

theorem writeBytes_concat_self :
    ∀ (bs buf : List Nat) (off : Nat),
      writeBytes buf off (bs ++ [buf.getD (off + bs.length) 0]) = writeBytes buf off bs := by
  intro bs
  induction bs with
  | nil =>
    intro buf off
    simp only [List.nil_append, List.length_nil, Nat.add_zero, writeBytes]
    exact set_getD_self buf off
  | cons b rest ih =>
    intro buf off
    rw [List.cons_append]
    simp only [writeBytes, List.length_cons]
    have h2 : buf.getD (off + (rest.length + 1)) 0 =
        (buf.set off b).getD (off + 1 + rest.length) 0 := by
      have harith : off + (rest.length + 1) = off + 1 + rest.length := by omega
      rw [harith]
      exact (set_getD_ne b buf off (off + 1 + rest.length) (by omega)).symm
    rw [h2, ih (buf.set off b) (off + 1)]

theorem writeBytes_getD_ge_len (bs data : List Nat) (off j : Nat) (h : data.length ≤ j) :
    (writeBytes data off bs).getD j 0 = data.getD j 0 := by
  have h1 : (writeBytes data off bs).getD j 0 = 0 :=
    List.getD_eq_default _ _ (by rw [length_writeBytes]; exact h)
  have h2 : data.getD j 0 = 0 := List.getD_eq_default _ _ h
  rw [h1, h2]

-- -------- Encode/decode round-trip lemmas --------

theorem getD_lt_of_bytes {B : List Nat} (hB : ∀ b ∈ B, b < 256) :
    ∀ j, B.getD j 0 < 256 := by
  intro j
  by_cases hj : j < B.length
  · have : B.getD j 0 ∈ B := by
      rw [List.getD_eq_getElem _ _ hj]
      exact List.getElem_mem hj
    exact hB _ this
  · rw [List.getD_eq_default _ _ (by omega)]
    omega

theorem encWord32_readWord32 {B : List Nat} (hB : ∀ j, B.getD j 0 < 256) (p : Nat) :
    ∀ k, k < 4 → (encWord32 (readWord32 B p)).getD k 0 = B.getD (p + k) 0 := by
  have h0 := hB p
  have h1 := hB (p + 1)
  have h2 := hB (p + 2)
  have h3 := hB (p + 3)
  intro k hk
  interval_cases k
  · show readWord32 B p % 256 = B.getD (p + 0) 0
    simp only [Nat.add_zero]
    unfold readWord32
    omega
  · show readWord32 B p / 256 % 256 = B.getD (p + 1) 0
    unfold readWord32
    omega
  · show readWord32 B p / 65536 % 256 = B.getD (p + 2) 0
    unfold readWord32
    omega
  · show readWord32 B p / 16777216 % 256 = B.getD (p + 3) 0
    unfold readWord32
    omega

theorem readWord32_lt {B : List Nat} (hB : ∀ j, B.getD j 0 < 256) (p : Nat) :
    readWord32 B p < 4294967296 := by
  have h0 := hB p
  have h1 := hB (p + 1)
  have h2 := hB (p + 2)
  have h3 := hB (p + 3)
  unfold readWord32
  omega

theorem encI32_i32ofWord {w : Nat} (hw : w < 4294967296) :
    encI32 (i32ofWord w) = encWord32 w := by
  unfold encI32 i32ofWord
  by_cases h : w < 2147483648
  · rw [if_pos h]
    congr 1
    omega
  · rw [if_neg h]
    congr 1
    omega

-- -------- Write-footprint lemmas --------

theorem getD_append_split (A L : List Nat) (k : Nat) :
    (A ++ L).getD k 0 = if k < A.length then A.getD k 0 else L.getD (k - A.length) 0 := by
  by_cases h : k < A.length
  · rw [if_pos h, List.getD_append _ _ _ _ h]
  · rw [if_neg h, List.getD_append_right _ _ _ _ (by omega)]

theorem encWord32_length (w : Nat) : (encWord32 w).length = 4 := rfl

theorem encI32_length (z : Int) : (encI32 z).length = 4 := rfl

theorem write_torque_frame (data : List Nat) (r : TorqueRow) :
    ∀ j, ¬ InNR (.torque r) j → (write_torque_row data r).getD j 0 = data.getD j 0 := by
  obtain ⟨rpm, comp, tq, off, kind⟩ := r
  intro j hj
  cases kind with
  | zrpm =>
    simp only [InNR, not_and, not_lt] at hj
    cases tq with
    | none => rfl
    | some t =>
      have hw : write_torque_row data ⟨rpm, comp, some t, off, .zrpm⟩ =
          writeBytes data (off + 7)
            ([data.getD (off + 7) 0] ++ encWord32 (f32repack comp) ++ encWord32 (f32repack t)) := rfl
      have hlen : ([data.getD (off + 7) 0] ++ encWord32 (f32repack comp) ++ encWord32 (f32repack t)).length = 9 := by
        simp [encWord32]
      rw [hw]
      by_cases hj7 : j = off + 7
      · subst hj7
        by_cases hin : off + 7 < data.length
        · have hi := writeBytes_getD_inside
            ([data.getD (off + 7) 0] ++ encWord32 (f32repack comp) ++ encWord32 (f32repack t)) data (off + 7) 0
            (by rw [hlen]; omega) (by omega)
          simp only [Nat.add_zero] at hi
          rw [hi]
          simp [encWord32]
        · exact writeBytes_getD_ge_len _ _ _ _ (by omega)
      · refine writeBytes_getD_outside _ data (off + 7) j ?_
        rw [hlen]
        omega
  | row_i =>
    simp only [InNR, not_and, not_lt] at hj
    cases tq with
    | none => rfl
    | some t =>
      have hw : write_torque_row data ⟨rpm, comp, some t, off, .row_i⟩ =
          writeBytes data (off + 7)
            (encI32 (rpmToInt rpm) ++ encWord32 (f32repack comp) ++ encWord32 (f32repack t)) := rfl
      rw [hw]
      refine writeBytes_getD_outside _ data (off + 7) j ?_
      have hlen : (encI32 (rpmToInt rpm) ++ encWord32 (f32repack comp) ++ encWord32 (f32repack t)).length = 12 := by
        simp [encI32, encWord32]
      rw [hlen]
      omega
  | row_f =>
    simp only [InNR, not_and, not_lt] at hj
    cases tq with
    | none => rfl
    | some t =>
      cases rpm with
      | inl z => rfl
      | inr w =>
        have hw : write_torque_row data ⟨.inr w, comp, some t, off, .row_f⟩ =
            writeBytes data (off + 7)
              (encWord32 (f32repack w) ++ encWord32 (f32repack comp) ++ encWord32 (f32repack t)) := rfl
        rw [hw]
        refine writeBytes_getD_outside _ data (off + 7) j ?_
        have hlen : (encWord32 (f32repack w) ++ encWord32 (f32repack comp) ++ encWord32 (f32repack t)).length = 12 := by
          simp [encWord32]
        rw [hlen]
        omega
  | endvar =>
    simp only [InNR, not_and, not_lt] at hj
    have hw : write_torque_row data ⟨rpm, comp, tq, off, .endvar⟩ =
        writeBytes data (off + 7)
          (encI32 (rpmToInt rpm) ++ encWord32 (f32repack comp) ++ [data.getD (off + 7 + 8) 0]) := rfl
    have hlen : (encI32 (rpmToInt rpm) ++ encWord32 (f32repack comp) ++
        [data.getD (off + 7 + 8) 0]).length = 9 := by
      simp [encI32, encWord32]
    rw [hw]
    by_cases hj15 : j = off + 15
    · subst hj15
      by_cases hin : off + 15 < data.length
      · have h8 : off + 15 = off + 7 + 8 := by omega
        rw [h8]
        rw [writeBytes_getD_inside _ data (off + 7) 8 (by rw [hlen]; omega) (by omega)]
        simp [encI32, encWord32]
      · exact writeBytes_getD_ge_len _ _ _ _ (by omega)
    · refine writeBytes_getD_outside _ data (off + 7) j ?_
      rw [hlen]
      omega

theorem write_torque_restore {B : List Nat} (hB : ∀ j, B.getD j 0 < 256) {r : TorqueRow}
    (hok : TRowOk B r) (hq : EntityQuiet (.torque r) = true) :
    ∀ (buf : List Nat), buf.length = B.length →
    ∀ j, InNR (.torque r) j → (write_torque_row buf r).getD j 0 = B.getD j 0 := by
  obtain ⟨rpm, comp, tq, off, kind⟩ := r
  intro buf hlen j hj
  cases kind with
  | zrpm =>
    obtain ⟨hbound, hrpm, hcomp, htq, hpc, hpt⟩ := hok
    simp only at hbound hrpm hcomp htq hpc hpt
    subst hrpm hcomp htq
    have hrc : f32repack (readWord32 B (off + 8)) = readWord32 B (off + 8) :=
      f32repack_id_of_inRange hpc
    have hrt : f32repack (readWord32 B (off + 12)) = readWord32 B (off + 12) :=
      f32repack_id_of_inRange hpt
    simp only [InNR] at hj
    have hw : write_torque_row buf ⟨.inl 0, readWord32 B (off + 8),
        some (readWord32 B (off + 12)), off, .zrpm⟩ =
        writeBytes buf (off + 7)
          ([buf.getD (off + 7) 0] ++ encWord32 (f32repack (readWord32 B (off + 8))) ++
            encWord32 (f32repack (readWord32 B (off + 12)))) := rfl
    rw [hw, hrc, hrt, List.singleton_append, List.cons_append, writeBytes_cons_self]
    have hk : j = off + 7 + 1 + (j - (off + 8)) := by omega
    rw [hk]
    rw [writeBytes_getD_inside _ buf (off + 7 + 1) (j - (off + 8))
      (by simp [encWord32]; omega) (by omega)]
    rw [getD_append_split]
    rw [encWord32_length]
    by_cases hs : j - (off + 8) < 4
    · rw [if_pos hs]
      have hv := encWord32_readWord32 hB (off + 8) (j - (off + 8)) (by omega)
      rw [hv]
    · rw [if_neg hs]
      have hv := encWord32_readWord32 hB (off + 12) (j - (off + 8) - 4) (by omega)
      rw [hv]
      have : off + 12 + (j - (off + 8) - 4) = off + 7 + 1 + (j - (off + 8)) := by omega
      rw [this]
  | row_i =>
    obtain ⟨hbound, hrpm, hcomp, htq, -, hpc, hpt⟩ := hok
    simp only at hbound hrpm hcomp htq hpc hpt
    subst hrpm hcomp htq
    have hrc : f32repack (readWord32 B (off + 11)) = readWord32 B (off + 11) :=
      f32repack_id_of_inRange hpc
    have hrt : f32repack (readWord32 B (off + 15)) = readWord32 B (off + 15) :=
      f32repack_id_of_inRange hpt
    simp only [InNR] at hj
    have hw : write_torque_row buf ⟨.inl (i32ofWord (readWord32 B (off + 7))),
        readWord32 B (off + 11), some (readWord32 B (off + 15)), off, .row_i⟩ =
        writeBytes buf (off + 7)
          (encI32 (i32ofWord (readWord32 B (off + 7))) ++
            encWord32 (f32repack (readWord32 B (off + 11))) ++
            encWord32 (f32repack (readWord32 B (off + 15)))) := rfl
    rw [hw, hrc, hrt, encI32_i32ofWord (readWord32_lt hB (off + 7))]
    have hk : j = off + 7 + (j - (off + 7)) := by omega
    rw [hk]
    rw [writeBytes_getD_inside _ buf (off + 7) (j - (off + 7))
      (by simp [encWord32]; omega) (by omega)]
    rw [getD_append_split, getD_append_split]
    rw [encWord32_length]
    simp only [List.length_append, encWord32_length]
    by_cases h4 : j - (off + 7) < 4
    · rw [if_pos (by omega : j - (off + 7) < 4 + 4), if_pos h4]
      have hv := encWord32_readWord32 hB (off + 7) (j - (off + 7)) (by omega)
      rw [hv]
    · by_cases h8 : j - (off + 7) < 8
      · rw [if_pos (by omega : j - (off + 7) < 4 + 4), if_neg h4]
        have hv := encWord32_readWord32 hB (off + 11) (j - (off + 7) - 4) (by omega)
        rw [hv]
        have : off + 11 + (j - (off + 7) - 4) = off + 7 + (j - (off + 7)) := by omega
        rw [this]
      · rw [if_neg (by omega : ¬ (j - (off + 7) < 4 + 4))]
        have hv := encWord32_readWord32 hB (off + 15) (j - (off + 7) - (4 + 4)) (by omega)
        rw [hv]
        have : off + 15 + (j - (off + 7) - (4 + 4)) = off + 7 + (j - (off + 7)) := by omega
        rw [this]
  | row_f =>
    obtain ⟨hbound, hrpm, hcomp, htq, hprf, hpc, hpt⟩ := hok
    simp only at hbound hrpm hcomp htq hprf hpc hpt
    subst hrpm hcomp htq
    have hrr : f32repack (readWord32 B (off + 7)) = readWord32 B (off + 7) :=
      f32repack_id_of_inRange hprf
    have hrc : f32repack (readWord32 B (off + 11)) = readWord32 B (off + 11) :=
      f32repack_id_of_inRange hpc
    have hrt : f32repack (readWord32 B (off + 15)) = readWord32 B (off + 15) :=
      f32repack_id_of_inRange hpt
    simp only [InNR] at hj
    have hw : write_torque_row buf ⟨.inr (readWord32 B (off + 7)),
        readWord32 B (off + 11), some (readWord32 B (off + 15)), off, .row_f⟩ =
        writeBytes buf (off + 7)
          (encWord32 (f32repack (readWord32 B (off + 7))) ++
            encWord32 (f32repack (readWord32 B (off + 11))) ++
            encWord32 (f32repack (readWord32 B (off + 15)))) := rfl
    rw [hw, hrr, hrc, hrt]
    have hk : j = off + 7 + (j - (off + 7)) := by omega
    rw [hk]
    rw [writeBytes_getD_inside _ buf (off + 7) (j - (off + 7))
      (by simp [encWord32]; omega) (by omega)]
    rw [getD_append_split, getD_append_split]
    rw [encWord32_length]
    simp only [List.length_append, encWord32_length]
    by_cases h4 : j - (off + 7) < 4
    · rw [if_pos (by omega : j - (off + 7) < 4 + 4), if_pos h4]
      have hv := encWord32_readWord32 hB (off + 7) (j - (off + 7)) (by omega)
      rw [hv]
    · by_cases h8 : j - (off + 7) < 8
      · rw [if_pos (by omega : j - (off + 7) < 4 + 4), if_neg h4]
        have hv := encWord32_readWord32 hB (off + 11) (j - (off + 7) - 4) (by omega)
        rw [hv]
        have : off + 11 + (j - (off + 7) - 4) = off + 7 + (j - (off + 7)) := by omega
        rw [this]
      · rw [if_neg (by omega : ¬ (j - (off + 7) < 4 + 4))]
        have hv := encWord32_readWord32 hB (off + 15) (j - (off + 7) - (4 + 4)) (by omega)
        rw [hv]
        have : off + 15 + (j - (off + 7) - (4 + 4)) = off + 7 + (j - (off + 7)) := by omega
        rw [this]
  | endvar =>
    obtain ⟨hbound, hrpm, hcomp, htq⟩ := hok
    simp only at hbound hrpm hcomp htq
    subst hrpm hcomp htq
    simp only [EntityQuiet] at hq
    have hrc : f32repack (readWord32 B (off + 11)) = readWord32 B (off + 11) :=
      quietF32_eq hq
    simp only [InNR] at hj
    have hw : write_torque_row buf ⟨.inl (i32ofWord (readWord32 B (off + 7))),
        readWord32 B (off + 11), none, off, .endvar⟩ =
        writeBytes buf (off + 7)
          (encI32 (i32ofWord (readWord32 B (off + 7))) ++
            encWord32 (f32repack (readWord32 B (off + 11))) ++
            [buf.getD (off + 7 + 8) 0]) := rfl
    rw [hw, hrc, encI32_i32ofWord (readWord32_lt hB (off + 7))]
    have hk : j = off + 7 + (j - (off + 7)) := by omega
    rw [hk]
    rw [writeBytes_getD_inside _ buf (off + 7) (j - (off + 7))
      (by simp [encWord32]; omega) (by omega)]
    rw [getD_append_split, getD_append_split]
    rw [encWord32_length]
    simp only [List.length_append, encWord32_length]
    by_cases h4 : j - (off + 7) < 4
    · rw [if_pos (by omega : j - (off + 7) < 4 + 4), if_pos h4]
      have hv := encWord32_readWord32 hB (off + 7) (j - (off + 7)) (by omega)
      rw [hv]
    · rw [if_pos (by omega : j - (off + 7) < 4 + 4), if_neg h4]
      have hv := encWord32_readWord32 hB (off + 11) (j - (off + 7) - 4) (by omega)
      rw [hv]
      have : off + 11 + (j - (off + 7) - 4) = off + 7 + (j - (off + 7)) := by omega
      rw [this]

theorem write_boost_frame (data : List Nat) (r : BoostRow) :
    ∀ j, ¬ InNR (.boost r) j → (write_boost_row data r).getD j 0 = data.getD j 0 := by
  obtain ⟨rpm, t0, t25, t50, t75, t100, off, kind⟩ := r
  intro j hj
  cases kind with
  | b0rpm =>
    simp only [InNR, not_and, not_lt] at hj
    have hw : write_boost_row data ⟨rpm, t0, t25, t50, t75, t100, off, .b0rpm⟩ =
        writeBytes data (off + 7)
          ([data.getD (off + 7) 0] ++ encWord32 (f32repack t0) ++ encWord32 (f32repack t25) ++ encWord32 (f32repack t50) ++
            encWord32 (f32repack t75) ++ encWord32 (f32repack t100)) := rfl
    have hlen : ([data.getD (off + 7) 0] ++ encWord32 (f32repack t0) ++ encWord32 (f32repack t25) ++ encWord32 (f32repack t50) ++
        encWord32 (f32repack t75) ++ encWord32 (f32repack t100)).length = 21 := by
      simp [encWord32]
    rw [hw]
    by_cases hj7 : j = off + 7
    · subst hj7
      by_cases hin : off + 7 < data.length
      · have hi := writeBytes_getD_inside
          ([data.getD (off + 7) 0] ++ encWord32 (f32repack t0) ++ encWord32 (f32repack t25) ++ encWord32 (f32repack t50) ++
            encWord32 (f32repack t75) ++ encWord32 (f32repack t100)) data (off + 7) 0
          (by rw [hlen]; omega) (by omega)
        simp only [Nat.add_zero] at hi
        rw [hi]
        simp [encWord32]
      · exact writeBytes_getD_ge_len _ _ _ _ (by omega)
    · refine writeBytes_getD_outside _ data (off + 7) j ?_
      rw [hlen]
      omega
  | brow =>
    simp only [InNR, not_and, not_lt] at hj
    have hw : write_boost_row data ⟨rpm, t0, t25, t50, t75, t100, off, .brow⟩ =
        writeBytes data (off + 7)
          (encI32 rpm ++ encWord32 (f32repack t0) ++ encWord32 (f32repack t25) ++ encWord32 (f32repack t50) ++
            encWord32 (f32repack t75) ++ encWord32 (f32repack t100)) := rfl
    rw [hw]
    refine writeBytes_getD_outside _ data (off + 7) j ?_
    have hlen : (encI32 rpm ++ encWord32 (f32repack t0) ++ encWord32 (f32repack t25) ++ encWord32 (f32repack t50) ++
        encWord32 (f32repack t75) ++ encWord32 (f32repack t100)).length = 24 := by
      simp [encI32, encWord32]
    rw [hlen]
    omega

theorem write_boost_restore {B : List Nat} (hB : ∀ j, B.getD j 0 < 256) {r : BoostRow}
    (hok : BRowOk B r) :
    ∀ (buf : List Nat), buf.length = B.length →
    ∀ j, InNR (.boost r) j → (write_boost_row buf r).getD j 0 = B.getD j 0 := by
  obtain ⟨rpm, t0, t25, t50, t75, t100, off, kind⟩ := r
  intro buf hlen j hj
  cases kind with
  | b0rpm =>
    obtain ⟨hbound, hrpm, h0, h25, h50, h75, h100, p0, p25, p50, p75, p100⟩ := hok
    simp only at hbound hrpm h0 h25 h50 h75 h100 p0 p25 p50 p75 p100
    subst hrpm h0 h25 h50 h75 h100
    have hr0 : f32repack (readWord32 B (off + 8)) = readWord32 B (off + 8) :=
      f32repack_id_of_inRange p0
    have hr25 : f32repack (readWord32 B (off + 12)) = readWord32 B (off + 12) :=
      f32repack_id_of_inRange p25
    have hr50 : f32repack (readWord32 B (off + 16)) = readWord32 B (off + 16) :=
      f32repack_id_of_inRange p50
    have hr75 : f32repack (readWord32 B (off + 20)) = readWord32 B (off + 20) :=
      f32repack_id_of_inRange p75
    have hr100 : f32repack (readWord32 B (off + 24)) = readWord32 B (off + 24) :=
      f32repack_id_of_inRange p100
    simp only [InNR] at hj
    have hw : write_boost_row buf ⟨0, readWord32 B (off + 8), readWord32 B (off + 12),
        readWord32 B (off + 16), readWord32 B (off + 20), readWord32 B (off + 24),
        off, .b0rpm⟩ =
        writeBytes buf (off + 7)
          ([buf.getD (off + 7) 0] ++ encWord32 (f32repack (readWord32 B (off + 8))) ++
            encWord32 (f32repack (readWord32 B (off + 12))) ++
            encWord32 (f32repack (readWord32 B (off + 16))) ++
            encWord32 (f32repack (readWord32 B (off + 20))) ++
            encWord32 (f32repack (readWord32 B (off + 24)))) := rfl
    rw [hw, hr0, hr25, hr50, hr75, hr100, List.singleton_append, List.cons_append,
      List.cons_append, List.cons_append, List.cons_append, writeBytes_cons_self]
    have hk : j = off + 7 + 1 + (j - (off + 8)) := by omega
    rw [hk]
    rw [writeBytes_getD_inside _ buf (off + 7 + 1) (j - (off + 8))
      (by simp [encWord32]; omega) (by omega)]
    rw [getD_append_split, getD_append_split, getD_append_split, getD_append_split]
    simp only [List.length_append, encWord32_length]
    by_cases h4 : j - (off + 8) < 4
    · rw [if_pos (by omega : j - (off + 8) < 4 + 4 + 4 + 4),
        if_pos (by omega : j - (off + 8) < 4 + 4 + 4),
        if_pos (by omega : j - (off + 8) < 4 + 4), if_pos h4]
      rw [encWord32_readWord32 hB (off + 8) (j - (off + 8)) (by omega)]
    · by_cases h8 : j - (off + 8) < 8
      · rw [if_pos (by omega : j - (off + 8) < 4 + 4 + 4 + 4),
          if_pos (by omega : j - (off + 8) < 4 + 4 + 4),
          if_pos (by omega : j - (off + 8) < 4 + 4), if_neg h4]
        rw [encWord32_readWord32 hB (off + 12) (j - (off + 8) - 4) (by omega)]
        have : off + 12 + (j - (off + 8) - 4) = off + 7 + 1 + (j - (off + 8)) := by omega
        rw [this]
      · by_cases h12 : j - (off + 8) < 12
        · rw [if_pos (by omega : j - (off + 8) < 4 + 4 + 4 + 4),
            if_pos (by omega : j - (off + 8) < 4 + 4 + 4),
            if_neg (by omega : ¬ (j - (off + 8) < 4 + 4))]
          rw [encWord32_readWord32 hB (off + 16) (j - (off + 8) - (4 + 4)) (by omega)]
          have : off + 16 + (j - (off + 8) - (4 + 4)) = off + 7 + 1 + (j - (off + 8)) := by
            omega
          rw [this]
        · by_cases h16 : j - (off + 8) < 16
          · rw [if_pos (by omega : j - (off + 8) < 4 + 4 + 4 + 4),
              if_neg (by omega : ¬ (j - (off + 8) < 4 + 4 + 4))]
            rw [encWord32_readWord32 hB (off + 20) (j - (off + 8) - (4 + 4 + 4)) (by omega)]
            have : off + 20 + (j - (off + 8) - (4 + 4 + 4)) =
                off + 7 + 1 + (j - (off + 8)) := by omega
            rw [this]
          · rw [if_neg (by omega : ¬ (j - (off + 8) < 4 + 4 + 4 + 4))]
            rw [encWord32_readWord32 hB (off + 24) (j - (off + 8) - (4 + 4 + 4 + 4))
              (by omega)]
            have : off + 24 + (j - (off + 8) - (4 + 4 + 4 + 4)) =
                off + 7 + 1 + (j - (off + 8)) := by omega
            rw [this]
  | brow =>
    obtain ⟨hbound, hrpm, h0, h25, h50, h75, h100, -, p0, p25, p50, p75, p100⟩ := hok
    simp only at hbound hrpm h0 h25 h50 h75 h100 p0 p25 p50 p75 p100
    subst hrpm h0 h25 h50 h75 h100
    have hr0 : f32repack (readWord32 B (off + 11)) = readWord32 B (off + 11) :=
      f32repack_id_of_inRange p0
    have hr25 : f32repack (readWord32 B (off + 15)) = readWord32 B (off + 15) :=
      f32repack_id_of_inRange p25
    have hr50 : f32repack (readWord32 B (off + 19)) = readWord32 B (off + 19) :=
      f32repack_id_of_inRange p50
    have hr75 : f32repack (readWord32 B (off + 23)) = readWord32 B (off + 23) :=
      f32repack_id_of_inRange p75
    have hr100 : f32repack (readWord32 B (off + 27)) = readWord32 B (off + 27) :=
      f32repack_id_of_inRange p100
    simp only [InNR] at hj
    have hw : write_boost_row buf ⟨i32ofWord (readWord32 B (off + 7)),
        readWord32 B (off + 11), readWord32 B (off + 15), readWord32 B (off + 19),
        readWord32 B (off + 23), readWord32 B (off + 27), off, .brow⟩ =
        writeBytes buf (off + 7)
          (encI32 (i32ofWord (readWord32 B (off + 7))) ++
            encWord32 (f32repack (readWord32 B (off + 11))) ++
            encWord32 (f32repack (readWord32 B (off + 15))) ++
            encWord32 (f32repack (readWord32 B (off + 19))) ++
            encWord32 (f32repack (readWord32 B (off + 23))) ++
            encWord32 (f32repack (readWord32 B (off + 27)))) := rfl
    rw [hw, hr0, hr25, hr50, hr75, hr100, encI32_i32ofWord (readWord32_lt hB (off + 7))]
    have hk : j = off + 7 + (j - (off + 7)) := by omega
    rw [hk]
    rw [writeBytes_getD_inside _ buf (off + 7) (j - (off + 7))
      (by simp [encWord32]; omega) (by omega)]
    rw [getD_append_split, getD_append_split, getD_append_split, getD_append_split,
      getD_append_split]
    simp only [List.length_append, encWord32_length]
    by_cases h4 : j - (off + 7) < 4
    · rw [if_pos (by omega : j - (off + 7) < 4 + 4 + 4 + 4 + 4),
        if_pos (by omega : j - (off + 7) < 4 + 4 + 4 + 4),
        if_pos (by omega : j - (off + 7) < 4 + 4 + 4),
        if_pos (by omega : j - (off + 7) < 4 + 4), if_pos h4]
      rw [encWord32_readWord32 hB (off + 7) (j - (off + 7)) (by omega)]
    · by_cases h8 : j - (off + 7) < 8
      · rw [if_pos (by omega : j - (off + 7) < 4 + 4 + 4 + 4 + 4),
          if_pos (by omega : j - (off + 7) < 4 + 4 + 4 + 4),
          if_pos (by omega : j - (off + 7) < 4 + 4 + 4),
          if_pos (by omega : j - (off + 7) < 4 + 4), if_neg h4]
        rw [encWord32_readWord32 hB (off + 11) (j - (off + 7) - 4) (by omega)]
        have : off + 11 + (j - (off + 7) - 4) = off + 7 + (j - (off + 7)) := by omega
        rw [this]
      · by_cases h12 : j - (off + 7) < 12
        · rw [if_pos (by omega : j - (off + 7) < 4 + 4 + 4 + 4 + 4),
            if_pos (by omega : j - (off + 7) < 4 + 4 + 4 + 4),
            if_pos (by omega : j - (off + 7) < 4 + 4 + 4),
            if_neg (by omega : ¬ (j - (off + 7) < 4 + 4))]
          rw [encWord32_readWord32 hB (off + 15) (j - (off + 7) - (4 + 4)) (by omega)]
          have : off + 15 + (j - (off + 7) - (4 + 4)) = off + 7 + (j - (off + 7)) := by omega
          rw [this]
        · by_cases h16 : j - (off + 7) < 16
          · rw [if_pos (by omega : j - (off + 7) < 4 + 4 + 4 + 4 + 4),
              if_pos (by omega : j - (off + 7) < 4 + 4 + 4 + 4),
              if_neg (by omega : ¬ (j - (off + 7) < 4 + 4 + 4))]
            rw [encWord32_readWord32 hB (off + 19) (j - (off + 7) - (4 + 4 + 4)) (by omega)]
            have : off + 19 + (j - (off + 7) - (4 + 4 + 4)) =
                off + 7 + (j - (off + 7)) := by omega
            rw [this]
          · by_cases h20 : j - (off + 7) < 20
            · rw [if_pos (by omega : j - (off + 7) < 4 + 4 + 4 + 4 + 4),
                if_neg (by omega : ¬ (j - (off + 7) < 4 + 4 + 4 + 4))]
              rw [encWord32_readWord32 hB (off + 23) (j - (off + 7) - (4 + 4 + 4 + 4))
                (by omega)]
              have : off + 23 + (j - (off + 7) - (4 + 4 + 4 + 4)) =
                  off + 7 + (j - (off + 7)) := by omega
              rw [this]
            · rw [if_neg (by omega : ¬ (j - (off + 7) < 4 + 4 + 4 + 4 + 4))]
              rw [encWord32_readWord32 hB (off + 27) (j - (off + 7) - (4 + 4 + 4 + 4 + 4))
                (by omega)]
              have : off + 27 + (j - (off + 7) - (4 + 4 + 4 + 4 + 4)) =
                  off + 7 + (j - (off + 7)) := by omega
              rw [this]

theorem write_torque_row_length (data : List Nat) (r : TorqueRow) :
    (write_torque_row data r).length = data.length := by
  obtain ⟨rpm, comp, tq, off, kind⟩ := r
  cases kind with
  | zrpm =>
    cases tq with
    | none => rfl
    | some t => exact length_writeBytes _ _ _
  | row_i =>
    cases tq with
    | none => rfl
    | some t => exact length_writeBytes _ _ _
  | row_f =>
    cases tq with
    | none => rfl
    | some t =>
      cases rpm with
      | inl z => rfl
      | inr w => exact length_writeBytes _ _ _
  | endvar => exact length_writeBytes _ _ _

theorem write_boost_row_length (data : List Nat) (r : BoostRow) :
    (write_boost_row data r).length = data.length := by
  obtain ⟨rpm, t0, t25, t50, t75, t100, off, kind⟩ := r
  cases kind with
  | b0rpm => exact length_writeBytes _ _ _
  | brow => exact length_writeBytes _ _ _

-- -------- Parameter write lemmas --------

theorem readLoop_end (data : List Nat) :
    ∀ (fmt : List Fc) (cur : Nat) (vs : List PVal) (e : Nat),
      readLoop data fmt cur = some (vs, e) → e = cur + sizeFmt fmt := by
  intro fmt
  induction fmt with
  | nil =>
    intro cur vs e h
    simp only [readLoop, Option.some.injEq, Prod.mk.injEq] at h
    simp [sizeFmt, ← h.2]
  | cons fc rest ih =>
    intro cur vs e h
    have hsz : sizeFmt (fc :: rest) = fcSize fc + sizeFmt rest := by simp [sizeFmt]
    cases fc with
    | f =>
      simp only [readLoop] at h
      by_cases hb : cur + 4 ≤ data.length
      case neg => rw [if_neg hb] at h; exact absurd h (by simp)
      rw [if_pos hb] at h
      cases hrec : readLoop data rest (cur + 4) with
      | none => rw [hrec] at h; exact absurd h (by simp)
      | some pe =>
        obtain ⟨vs2, e2⟩ := pe
        rw [hrec] at h
        simp only [Option.some.injEq, Prod.mk.injEq] at h
        have := ih (cur + 4) vs2 e2 hrec
        have hfc : fcSize Fc.f = 4 := rfl
        omega
    | i =>
      simp only [readLoop] at h
      by_cases hb : cur + 4 ≤ data.length
      case neg => rw [if_neg hb] at h; exact absurd h (by simp)
      rw [if_pos hb] at h
      cases hrec : readLoop data rest (cur + 4) with
      | none => rw [hrec] at h; exact absurd h (by simp)
      | some pe =>
        obtain ⟨vs2, e2⟩ := pe
        rw [hrec] at h
        simp only [Option.some.injEq, Prod.mk.injEq] at h
        have := ih (cur + 4) vs2 e2 hrec
        have hfc : fcSize Fc.i = 4 := rfl
        omega
    | b =>
      simp only [readLoop] at h
      by_cases hb : cur + 1 ≤ data.length
      case neg => rw [if_neg hb] at h; exact absurd h (by simp)
      rw [if_pos hb] at h
      cases hrec : readLoop data rest (cur + 1) with
      | none => rw [hrec] at h; exact absurd h (by simp)
      | some pe =>
        obtain ⟨vs2, e2⟩ := pe
        rw [hrec] at h
        simp only [Option.some.injEq, Prod.mk.injEq] at h
        have := ih (cur + 1) vs2 e2 hrec
        have hfc : fcSize Fc.b = 1 := rfl
        omega

theorem packVal_length_le (fc : Fc) (v : PVal) : (packVal fc v).length ≤ fcSize fc := by
  cases fc <;> cases v <;> simp [packVal, encWord32, encI32, fcSize]

theorem writeValsLoop_frame :
    ∀ (fmt : List Fc) (vals : List PVal) (data : List Nat) (cur j : Nat),
      j < cur ∨ cur + sizeFmt fmt ≤ j →
      (writeValsLoop fmt vals data cur).getD j 0 = data.getD j 0 := by
  intro fmt
  induction fmt with
  | nil => intros; rfl
  | cons fc fr ih =>
    intro vals data cur j hj
    cases vals with
    | nil => rfl
    | cons v vr =>
      have hsz : sizeFmt (fc :: fr) = fcSize fc + sizeFmt fr := by simp [sizeFmt]
      simp only [writeValsLoop]
      rw [ih vr (writeBytes data cur (packVal fc v)) (cur + fcSize fc) j (by omega)]
      refine writeBytes_getD_outside _ _ _ _ ?_
      have := packVal_length_le fc v
      omega

theorem writeValsLoop_length :
    ∀ (fmt : List Fc) (vals : List PVal) (data : List Nat) (cur : Nat),
      (writeValsLoop fmt vals data cur).length = data.length := by
  intro fmt
  induction fmt with
  | nil => intros; rfl
  | cons fc fr ih =>
    intro vals data cur
    cases vals with
    | nil => rfl
    | cons v vr =>
      simp only [writeValsLoop]
      rw [ih, length_writeBytes]

theorem writeValsLoop_restore {B : List Nat} (hB : ∀ j, B.getD j 0 < 256) :
    ∀ (fmt : List Fc) (vals : List PVal) (cur e : Nat),
      readLoop B fmt cur = some (vals, e) →
      (∀ v ∈ vals, PValQuiet v = true) →
      ∀ (buf : List Nat), buf.length = B.length →
      ∀ j, cur ≤ j → j < cur + sizeFmt fmt →
        (writeValsLoop fmt vals buf cur).getD j 0 = B.getD j 0 := by
  intro fmt
  induction fmt with
  | nil =>
    intro vals cur e h hq buf hlen j hj1 hj2
    simp only [sizeFmt, List.map_nil, List.sum_nil, Nat.add_zero] at hj2
    omega
  | cons fc fr ih =>
    intro vals cur e h hq buf hlen j hj1 hj2
    have hsz : sizeFmt (fc :: fr) = fcSize fc + sizeFmt fr := by simp [sizeFmt]
    cases fc with
    | f =>
      have hfc : fcSize Fc.f = 4 := rfl
      simp only [readLoop] at h
      by_cases hb : cur + 4 ≤ B.length
      case neg => rw [if_neg hb] at h; exact absurd h (by simp)
      rw [if_pos hb] at h
      cases hrec : readLoop B fr (cur + 4) with
      | none => rw [hrec] at h; exact absurd h (by simp)
      | some pe =>
        obtain ⟨vs, e2⟩ := pe
        rw [hrec] at h
        simp only [Option.some.injEq, Prod.mk.injEq] at h
        obtain ⟨⟨hvals, -⟩, -⟩ : (PVal.f (readWord32 B cur) :: vs = vals ∧ e2 = e) ∧ True :=
          ⟨h, trivial⟩
        subst hvals
        have hqh := hq _ (List.mem_cons_self _ _)
        simp only [PValQuiet] at hqh
        have hpv : packVal Fc.f (PVal.f (readWord32 B cur)) =
            encWord32 (readWord32 B cur) := by
          show encWord32 (f32repack (readWord32 B cur)) = encWord32 (readWord32 B cur)
          rw [quietF32_eq hqh]
        simp only [writeValsLoop, fcSize]
        rw [hpv]
        by_cases hjf : j < cur + 4
        · rw [writeValsLoop_frame fr vs _ (cur + 4) j (by omega)]
          have hkj : j = cur + (j - cur) := by omega
          rw [hkj]
          rw [writeBytes_getD_inside _ buf cur (j - cur)
            (by simp [encWord32]; omega) (by omega)]
          exact encWord32_readWord32 hB cur (j - cur) (by omega)
        · exact ih vs (cur + 4) e2 hrec
            (fun v hv => hq v (List.mem_cons_of_mem _ hv)) (writeBytes buf cur _)
            (by rw [length_writeBytes]; exact hlen) j (by omega) (by omega)
    | i =>
      have hfc : fcSize Fc.i = 4 := rfl
      simp only [readLoop] at h
      by_cases hb : cur + 4 ≤ B.length
      case neg => rw [if_neg hb] at h; exact absurd h (by simp)
      rw [if_pos hb] at h
      cases hrec : readLoop B fr (cur + 4) with
      | none => rw [hrec] at h; exact absurd h (by simp)
      | some pe =>
        obtain ⟨vs, e2⟩ := pe
        rw [hrec] at h
        simp only [Option.some.injEq, Prod.mk.injEq] at h
        obtain ⟨⟨hvals, -⟩, -⟩ : (PVal.i (i32ofWord (readWord32 B cur)) :: vs = vals ∧
            e2 = e) ∧ True := ⟨h, trivial⟩
        subst hvals
        simp only [writeValsLoop, fcSize]
        by_cases hjf : j < cur + 4
        · rw [writeValsLoop_frame fr vs _ (cur + 4) j (by omega)]
          have hkj : j = cur + (j - cur) := by omega
          rw [hkj]
          have hpv : packVal Fc.i (PVal.i (i32ofWord (readWord32 B cur))) =
              encWord32 (readWord32 B cur) := by
            show encI32 (i32ofWord (readWord32 B cur)) = encWord32 (readWord32 B cur)
            exact encI32_i32ofWord (readWord32_lt hB cur)
          rw [hpv]
          rw [writeBytes_getD_inside _ buf cur (j - cur)
            (by simp [encWord32]; omega) (by omega)]
          exact encWord32_readWord32 hB cur (j - cur) (by omega)
        · exact ih vs (cur + 4) e2 hrec
            (fun v hv => hq v (List.mem_cons_of_mem _ hv)) (writeBytes buf cur _)
            (by rw [length_writeBytes]; exact hlen) j (by omega) (by omega)
    | b =>
      have hfc : fcSize Fc.b = 1 := rfl
      simp only [readLoop] at h
      by_cases hb : cur + 1 ≤ B.length
      case neg => rw [if_neg hb] at h; exact absurd h (by simp)
      rw [if_pos hb] at h
      cases hrec : readLoop B fr (cur + 1) with
      | none => rw [hrec] at h; exact absurd h (by simp)
      | some pe =>
        obtain ⟨vs, e2⟩ := pe
        rw [hrec] at h
        simp only [Option.some.injEq, Prod.mk.injEq] at h
        obtain ⟨⟨hvals, -⟩, -⟩ : (PVal.b (B.getD cur 0) :: vs = vals ∧ e2 = e) ∧ True :=
          ⟨h, trivial⟩
        subst hvals
        simp only [writeValsLoop, fcSize]
        by_cases hjf : j < cur + 1
        · rw [writeValsLoop_frame fr vs _ (cur + 1) j (by omega)]
          have hj0 : j = cur := by omega
          subst hj0
          have hkj : (writeBytes buf j (packVal Fc.b (PVal.b (B.getD j 0)))).getD j 0 =
              (writeBytes buf j (packVal Fc.b (PVal.b (B.getD j 0)))).getD (j + 0) 0 := by
            rw [Nat.add_zero]
          rw [hkj]
          rw [writeBytes_getD_inside _ buf j 0 (by simp [packVal]) (by omega)]
          show B.getD j 0 % 256 = B.getD j 0
          exact Nat.mod_eq_of_lt (hB j)
        · exact ih vs (cur + 1) e2 hrec
            (fun v hv => hq v (List.mem_cons_of_mem _ hv)) (writeBytes buf cur _)
            (by rw [length_writeBytes]; exact hlen) j (by omega) (by omega)

theorem PARAMS_sigLen_consistent :
    ∀ e ∈ PARAMS, sigLenByName e.2.1 = e.1.length := by decide

theorem PARAMS_emptyFmt_consistent :
    ∀ e ∈ PARAMS, e.2.2 = [] → lookupFmtByName e.2.1 = [] := by decide

theorem write_param_frame (data : List Nat) (p : Parameter) :
    ∀ j, ¬ InNR (.param p) j → (write_param data p).getD j 0 = data.getD j 0 := by
  intro j hj
  simp only [InNR, not_and, not_lt] at hj
  unfold write_param
  by_cases hf : fmtUsed p = []
  · rw [if_pos hf]
  · rw [if_neg hf]
    refine writeValsLoop_frame _ _ _ _ _ ?_
    omega

theorem write_param_length (data : List Nat) (p : Parameter) :
    (write_param data p).length = data.length := by
  unfold write_param
  by_cases hf : fmtUsed p = []
  · rw [if_pos hf]
  · rw [if_neg hf]
    exact writeValsLoop_length _ _ _ _

theorem write_param_restore {B : List Nat} (hB : ∀ j, B.getD j 0 < 256) {p : Parameter}
    (hok : ParamOk B p) (hq : EntityQuiet (.param p) = true) :
    ∀ (buf : List Nat), buf.length = B.length →
    ∀ j, InNR (.param p) j → (write_param buf p).getD j 0 = B.getD j 0 := by
  obtain ⟨sig, pfmt, hmem, hfmt, hemp, hread⟩ := hok
  have hsiglen : sigLenByName p.name = sig.length :=
    PARAMS_sigLen_consistent (sig, p.name, pfmt) hmem
  intro buf hlen j hj
  simp only [InNR] at hj
  by_cases hp : pfmt = []
  · exfalso
    have hlk : lookupFmtByName p.name = [] :=
      PARAMS_emptyFmt_consistent (sig, p.name, pfmt) hmem (by simpa using hp)
    have hfu : fmtUsed p = [] := by
      unfold fmtUsed
      rw [hfmt, hp]
      simp [hlk]
    rw [hfu] at hj
    simp [sizeFmt] at hj
    omega
  · have hfu : fmtUsed p = pfmt := by
      unfold fmtUsed
      rw [hfmt]
      rw [if_neg hp]
    unfold write_param
    rw [hfu, if_neg hp]
    rw [hfu] at hj
    rw [hsiglen] at hj ⊢
    have hqv : ∀ v ∈ p.values, PValQuiet v = true := by
      simpa only [EntityQuiet, List.all_eq_true] using hq
    exact writeValsLoop_restore hB pfmt p.values (p.offset + sig.length) _ (hread hp) hqv
      buf hlen j (by omega) (by omega)

theorem parse_params_ok {data : List Nat} {p : Parameter} (hp : p ∈ parse_params data) :
    ParamOk data p := by
  unfold parse_params at hp
  rw [List.mem_flatMap] at hp
  obtain ⟨entry, hentry, hpos⟩ := hp
  obtain ⟨sig, name, fmt⟩ := entry
  rw [List.mem_filterMap] at hpos
  obtain ⟨pos, _hposmem, hcand⟩ := hpos
  dsimp only at hcand
  by_cases hfmt : fmt = []
  · rw [if_pos hfmt] at hcand
    simp only [Option.some.injEq] at hcand
    subst hcand
    exact ⟨sig, fmt, hentry, rfl, fun _ => rfl, fun hne => absurd hfmt hne⟩
  · rw [if_neg hfmt] at hcand
    rcases hrb : read_by_fmt data (pos + sig.length) fmt with ⟨ovals, endp⟩
    rw [hrb] at hcand
    cases ovals with
    | none => simp at hcand
    | some vals =>
      simp only [Option.some.injEq] at hcand
      subst hcand
      unfold read_by_fmt at hrb
      cases hrl : readLoop data fmt (pos + sig.length) with
      | none => rw [hrl] at hrb; simp at hrb
      | some pe =>
        obtain ⟨vs, e⟩ := pe
        rw [hrl] at hrb
        simp only [Prod.mk.injEq, Option.some.injEq] at hrb
        obtain ⟨hv, he⟩ := hrb
        subst hv
        have hend := readLoop_end data fmt (pos + sig.length) vs e hrl
        refine ⟨sig, fmt, hentry, rfl, fun h => absurd h hfmt, fun _ => ?_⟩
        rw [hrl, hend]

theorem scanEntities_ok {data : List Nat} {e : Entity} (he : e ∈ scanEntities data) :
    EntityOk data e := by
  unfold scanEntities at he
  rw [List.mem_append] at he
  rcases he with he | he
  · rw [List.mem_append] at he
    rcases he with he | he
    · rw [List.mem_map] at he
      obtain ⟨r, hr, rfl⟩ := he
      rw [List.mem_flatMap] at hr
      obtain ⟨t, ht, hrt⟩ := hr
      exact parse_torque_rows_ok data ht hrt
    · rw [List.mem_map] at he
      obtain ⟨r, hr, rfl⟩ := he
      rw [List.mem_flatMap] at hr
      obtain ⟨t, ht, hrt⟩ := hr
      exact parse_boost_rows_ok data ht hrt
  · rw [List.mem_map] at he
    obtain ⟨p, hp, rfl⟩ := he
    exact parse_params_ok hp

theorem writeEntity_length (buf : List Nat) (e : Entity) :
    (writeEntity buf e).length = buf.length := by
  cases e with
  | torque r => exact write_torque_row_length buf r
  | boost r => exact write_boost_row_length buf r
  | param p => exact write_param_length buf p

theorem writeEntity_frame (buf : List Nat) (e : Entity) :
    ∀ j, ¬ InNR e j → (writeEntity buf e).getD j 0 = buf.getD j 0 := by
  cases e with
  | torque r => exact write_torque_frame buf r
  | boost r => exact write_boost_frame buf r
  | param p => exact write_param_frame buf p

theorem writeEntity_restore {B : List Nat} (hB : ∀ j, B.getD j 0 < 256) {e : Entity}
    (hok : EntityOk B e) (hq : EntityQuiet e = true) (buf : List Nat)
    (hlen : buf.length = B.length) :
    ∀ j, InNR e j → (writeEntity buf e).getD j 0 = B.getD j 0 := by
  cases e with
  | torque r => exact write_torque_restore hB hok hq buf hlen
  | boost r => exact write_boost_restore hB hok buf hlen
  | param p => exact write_param_restore hB hok hq buf hlen

theorem InNR_edit_iff {o e : Entity} (h : EditOf o e) : ∀ j, InNR e j ↔ InNR o j := by
  cases o with
  | torque ro =>
    cases e with
    | torque re =>
      obtain ⟨hoff, hkind, _⟩ := h
      intro j
      simp only [InNR, hoff, hkind]
    | boost re => exact h.elim
    | param pe => exact h.elim
  | boost ro =>
    cases e with
    | torque re => exact h.elim
    | boost re =>
      obtain ⟨hoff, hkind, _⟩ := h
      intro j
      simp only [InNR, hoff, hkind]
    | param pe => exact h.elim
  | param po =>
    cases e with
    | torque re => exact h.elim
    | boost re => exact h.elim
    | param pe =>
      obtain ⟨hoff, hname, hfmt, _⟩ := h
      intro j
      simp only [InNR, fmtUsed, hoff, hname, hfmt]

theorem applyWrites_length (es : List Entity) :
    ∀ buf : List Nat, (applyWrites buf es).length = buf.length := by
  induction es with
  | nil => intro buf; rfl
  | cons e rest ih =>
    intro buf
    show (applyWrites (writeEntity buf e) rest).length = _
    rw [ih, writeEntity_length]

theorem applyWrites_frame : ∀ (es : List Entity) (buf : List Nat) (j : Nat),
    (∀ e ∈ es, ¬ InNR e j) → (applyWrites buf es).getD j 0 = buf.getD j 0 := by
  intro es
  induction es with
  | nil => intros; rfl
  | cons e rest ih =>
    intro buf j hj
    show (applyWrites (writeEntity buf e) rest).getD j 0 = _
    rw [ih (writeEntity buf e) j (fun e2 he2 => hj e2 (List.mem_cons_of_mem _ he2))]
    exact writeEntity_frame buf e j (hj e (List.mem_cons_self _ _))

theorem list_ext_getD : ∀ (l1 l2 : List Nat), l1.length = l2.length →
    (∀ j, l1.getD j 0 = l2.getD j 0) → l1 = l2 := by
  intro l1
  induction l1 with
  | nil =>
    intro l2 h _
    cases l2 with
    | nil => rfl
    | cons b t => simp at h
  | cons a t ih =>
    intro l2 hlen hj
    cases l2 with
    | nil => simp at hlen
    | cons b t2 =>
      have h0 : a = b := hj 0
      have ht : t = t2 := ih t2 (by simpa using hlen) (fun j => hj (j + 1))
      rw [h0, ht]

theorem applyWrites_restore {B : List Nat} (hB : ∀ b ∈ B, b < 256) :
    ∀ (rs : List Entity) (buf : List Nat),
      buf.length = B.length →
      (∀ e ∈ rs, EntityOk B e) →
      (∀ e ∈ rs, EntityQuiet e = true) →
      (∀ j, (∀ e ∈ rs, ¬ InNR e j) → buf.getD j 0 = B.getD j 0) →
      applyWrites buf rs = B := by
  have hB' : ∀ j, B.getD j 0 < 256 := getD_lt_of_bytes hB
  intro rs
  induction rs with
  | nil =>
    intro buf hlen _ _ hagree
    exact list_ext_getD buf B hlen (fun j => hagree j (by simp))
  | cons e rest ih =>
    intro buf hlen hok hqs hagree
    show applyWrites (writeEntity buf e) rest = B
    apply ih
    · rw [writeEntity_length]; exact hlen
    · intro e2 he2
      exact hok e2 (List.mem_cons_of_mem _ he2)
    · intro e2 he2
      exact hqs e2 (List.mem_cons_of_mem _ he2)
    · intro j hj
      by_cases hin : InNR e j
      · exact writeEntity_restore hB' (hok e (List.mem_cons_self _ _))
          (hqs e (List.mem_cons_self _ _)) buf hlen j hin
      · rw [writeEntity_frame buf e j hin]
        refine hagree j ?_
        intro e2 he2
        rcases List.mem_cons.mp he2 with rfl | h2
        · exact hin
        · exact hj e2 h2

-- -------- Claim C4 --------

/-- Claim C4: `write_torque_row` on a ZeroRpm row writes back the
leading byte CURRENTLY in the buffer (a compression/torque edit never
alters it), on an EndVar row writes back the trailing byte currently in
the buffer, and in both cases leaves every byte outside the payload
range `[offset + 7, offset + 16)` unchanged. -/
theorem c4_writer_frame (data : List Nat) (r : TorqueRow) :
    (r.kind = .zrpm →
      (write_torque_row data r).getD (r.offset + 7) 0 = data.getD (r.offset + 7) 0 ∧
      ∀ j, j < r.offset + 7 ∨ r.offset + 16 ≤ j →
        (write_torque_row data r).getD j 0 = data.getD j 0) ∧
    (r.kind = .endvar →
      (write_torque_row data r).getD (r.offset + 15) 0 = data.getD (r.offset + 15) 0 ∧
      ∀ j, j < r.offset + 7 ∨ r.offset + 16 ≤ j →
        (write_torque_row data r).getD j 0 = data.getD j 0) := by
  obtain ⟨rpm, comp, tq, off, kind⟩ := r
  dsimp only
  cases kind with
  | row_i => exact ⟨(fun h => nomatch h), (fun h => nomatch h)⟩
  | row_f => exact ⟨(fun h => nomatch h), (fun h => nomatch h)⟩
  | zrpm =>
    refine ⟨fun _ => ?_, fun h => nomatch h⟩
    cases tq with
    | none => exact ⟨rfl, fun j _ => rfl⟩
    | some t =>
      have hw : write_torque_row data ⟨rpm, comp, some t, off, .zrpm⟩ =
          writeBytes data (off + 7)
            ([data.getD (off + 7) 0] ++ encWord32 (f32repack comp) ++ encWord32 (f32repack t)) := rfl
      have hlen : ([data.getD (off + 7) 0] ++ encWord32 (f32repack comp) ++ encWord32 (f32repack t)).length = 9 := by
        simp [encWord32]
      constructor
      · rw [hw]
        by_cases hin : off + 7 < data.length
        · have hi := writeBytes_getD_inside
            ([data.getD (off + 7) 0] ++ encWord32 (f32repack comp) ++ encWord32 (f32repack t)) data (off + 7) 0
            (by rw [hlen]; omega) (by omega)
          simp only [Nat.add_zero] at hi
          rw [hi]
          simp [encWord32]
        · exact writeBytes_getD_ge_len _ _ _ _ (by omega)
      · intro j hj
        rw [hw]
        refine writeBytes_getD_outside _ data (off + 7) j ?_
        rw [hlen]
        omega
  | endvar =>
    refine ⟨(fun h => nomatch h), fun _ => ?_⟩
    have hw : write_torque_row data ⟨rpm, comp, tq, off, .endvar⟩ =
        writeBytes data (off + 7)
          (encI32 (rpmToInt rpm) ++ encWord32 (f32repack comp) ++ [data.getD (off + 7 + 8) 0]) := rfl
    have hlen : (encI32 (rpmToInt rpm) ++ encWord32 (f32repack comp) ++
        [data.getD (off + 7 + 8) 0]).length = 9 := by
      simp [encI32, encWord32]
    constructor
    · rw [hw]
      by_cases hin : off + 15 < data.length
      · have h8 : off + 15 = off + 7 + 8 := by omega
        rw [h8]
        rw [writeBytes_getD_inside _ data (off + 7) 8 (by rw [hlen]; omega) (by omega)]
        simp [encI32, encWord32]
      · exact writeBytes_getD_ge_len _ _ _ _ (by omega)
    · intro j hj
      rw [hw]
      refine writeBytes_getD_outside _ data (off + 7) j ?_
      rw [hlen]
      omega

set_option maxRecDepth 40000 in
/-- Witness for C4 on the concrete buffer `c3vecExt` and its two rows. -/
theorem c4_writer_frame_witness :
    (write_torque_row c3vecExt ⟨.inl 0, 0x41200000, some 0x42C80000, 0, .zrpm⟩).getD (0 + 7) 0 =
      c3vecExt.getD (0 + 7) 0 ∧
    (write_torque_row c3vecExt ⟨.inl 3000, 0x41200000, none, 16, .endvar⟩).getD (16 + 15) 0 =
      c3vecExt.getD (16 + 15) 0 := by
  constructor
  · exact ((c4_writer_frame c3vecExt
      ⟨.inl 0, 0x41200000, some 0x42C80000, 0, .zrpm⟩).1 rfl).1
  · exact ((c4_writer_frame c3vecExt
      ⟨.inl 3000, 0x41200000, none, 16, .endvar⟩).2 rfl).1

-- -------- Claim C10 --------

/-- Claim C10: on the empty buffer every scanner entry point is total
and returns its empty / not-found result: no torque tables, no boost
tables, no parameters, and the not-found layout label with no offset. -/
theorem c10_empty_buffer :
    parse_torque_tables [] = [] ∧ parse_boost_tables [] = [] ∧
      parse_params [] = [] ∧ detect_engine_layout [] = ("Unknown/Not found", none) := by
  refine ⟨rfl, rfl, ?_, rfl⟩
  decide

-- -------- Claim C3 --------

set_option maxRecDepth 40000 in
/-- Counterexample to C3: on the exact 16-byte reference vector,
`parse_torque_tables` yields NO torque row at all — the lone ZeroRpm
candidate row is discarded by the ≥ 2-row minimum-size filter, so the
claim that scanning yields exactly one TorqueRow fails. -/
theorem c3_min_size_filters_reference_vector :
    ((parse_torque_tables c3vec).flatMap TorqueTable.rows).length = 0 := by
  decide

-- -------- Claim C1 --------

set_option maxRecDepth 100000 in
/-- Counterexample to C1: an in-range edit (parameters have no
plausibility gate) of the FuelConsumption parameter scanned from
`c1buf`, changing its float to bit pattern `0xA5200000`, makes the
edited bytes `00 00 20 A5` complete a RevLimitSetting signature
`20 A5 5C C1 C4` at offset 7 — re-scanning the edited buffer finds TWO
entities where the original scan found one, so "re-scanning B' finds
the same count of entities as scanning B" fails. -/
theorem c1_count_not_preserved :
    (Entity.param c1orig) ∈ scanEntities c1buf ∧
    EditOf (.param c1orig) (.param c1edit) ∧
    (scanEntities c1buf).length = 1 ∧
    (scanEntities (writeEntity c1buf (.param c1edit))).length = 2 := by
  refine ⟨by decide, ⟨rfl, rfl, rfl, by decide⟩, by decide, by decide⟩

/-- Claim C1 as amended: for every byte buffer B, every list of
in-range edits of entities scanned from B, applied through the Writer
in sequence, and every revert list that writes the original scanned
entities (covering at least the edited ones, in any order) back through
the Writer — provided none of the reverted entities carries a
signaling-NaN bit pattern in an un-gated float32 field (an EndVar row's
compression, or a parameter's float values; CPython's
`struct.pack('<f', struct.unpack('<f', b)[0])` quiets such patterns,
e.g. `01 00 80 7F` becomes `01 00 C0 7F`) — the final buffer is B
byte-for-byte.  (Re-scanning the edited buffer need NOT find the same
count of entities: an edit can complete a new signature elsewhere in
the buffer.) -/
theorem c1_writer_roundtrip (B : List Nat) (hB : ∀ b ∈ B, b < 256)
    (edits : List (Entity × Entity)) (reverts : List Entity)
    (hedit : ∀ pr ∈ edits, pr.1 ∈ scanEntities B ∧ EditOf pr.1 pr.2)
    (hcover : ∀ pr ∈ edits, pr.1 ∈ reverts)
    (hrev : ∀ e ∈ reverts, e ∈ scanEntities B)
    (hquiet : ∀ e ∈ reverts, EntityQuiet e = true) :
    applyWrites (applyWrites B (edits.map Prod.snd)) reverts = B := by
  apply applyWrites_restore hB
  · rw [applyWrites_length]
  · intro e he
    exact scanEntities_ok (hrev e he)
  · exact hquiet
  · intro j hj
    rw [applyWrites_frame (edits.map Prod.snd) B j ?_]
    intro e2 he2
    rw [List.mem_map] at he2
    obtain ⟨pr, hpr, rfl⟩ := he2
    rw [InNR_edit_iff (hedit pr hpr).2 j]
    exact hj pr.1 (hcover pr hpr)

set_option maxRecDepth 100000 in
/-- Witness for C1: the FuelConsumption parameter of `c1buf` is edited
and then reverted, reproducing the buffer byte-for-byte. -/
theorem c1_writer_roundtrip_witness :
    applyWrites (applyWrites c1buf
      ([((Entity.param c1orig : Entity), (Entity.param c1edit : Entity))].map Prod.snd))
      [Entity.param c1orig] = c1buf := by
  refine c1_writer_roundtrip c1buf (by decide)
    [((.param c1orig : Entity), (.param c1edit : Entity))] [.param c1orig] ?_ ?_ ?_ ?_
  · intro pr hpr
    rcases List.mem_singleton.mp hpr with rfl
    exact ⟨by decide, ⟨rfl, rfl, rfl, by decide⟩⟩
  · intro pr hpr
    rcases List.mem_singleton.mp hpr with rfl
    exact List.mem_singleton.mpr rfl
  · intro e he
    rcases List.mem_singleton.mp he with rfl
    decide
  · intro e he
    rcases List.mem_singleton.mp he with rfl
    decide

set_option maxRecDepth 40000 in
/-- Claim C3 as amended: the reference vector alone produces no table
(its single ZeroRpm row is discarded by the minimum-size filter); once
the buffer is extended with a single EndVar row, scanning yields one
table whose first row is a TorqueRow with kind ZeroRpm, compression
10.0, torque 100.0 and offset 0. -/
theorem c3_format_dispatch :
    parse_torque_tables c3vec = [] ∧
    ∃ t rest, parse_torque_tables c3vecExt = [t] ∧
      t.rows = (⟨.inl 0, 0x41200000, some 0x42C80000, 0, .zrpm⟩ : TorqueRow) :: rest ∧
      f32interp 0x41200000 = some 10 ∧ f32interp 0x42C80000 = some 100 := by
  refine ⟨by decide,
    ⟨0, [⟨.inl 0, 0x41200000, some 0x42C80000, 0, .zrpm⟩,
         ⟨.inl 3000, 0x41200000, none, 16, .endvar⟩]⟩,
    [⟨.inl 3000, 0x41200000, none, 16, .endvar⟩], by decide, rfl,
    by norm_num [f32interp, f32num], by norm_num [f32interp, f32num]⟩

end EDF
